import Mathlib

/-!
Greedy operation finder of the `lzb` package (`lzb/greedy.go`).

A shallow embedding of `bestMatch`, `potentialOffsets`, `findOp` and
`greedyFinder.findOps`, followed by theorems about them.

Positions (`int64`) and lengths (`int`) are unbounded integers: the code does
no arithmetic that could leave the 64-bit range for positions of a real
buffer.  The dictionary type `hashDict`, its buffer, its hash table, the
constant `MaxLength` and the operation types `lit` and `match` are declared
outside `greedy.go`; the code only reaches them through a handful of calls,
which are gathered in the record `Facade`.

`findOps` works on the copy `d := *sd` and returns operations only.  A
dictionary is a value, the head together with what buffer and hash table hold
(`hashDict`); `d.move` yields the dictionary after the advance, and `findOps`
is a function of the dictionary it is called on.  What the advances of the
copy do to the storage of `*sd` is decided in code outside `greedy.go` and is
not part of the embedding.  An operation sequence is compared with the data
through `SoundParse` and `decodeOps`.
-/

set_option autoImplicit false

namespace Lzb

/-- A byte of the dictionary buffer. -/
abbrev Byte := UInt8

/-- The error values `greedy.go` can see: its own two sentinels, `io.EOF`,
and any other error a collaborator returns (told apart by a tag). -/
inductive Error where
  | errNoMatch
  | errEmptyBuf
  | EOF
  | other (tag : Nat)
  deriving DecidableEq, Repr

/-- The Go type `match`, `match{distance: ..., n: ...}` (the name is reserved
in Lean). -/
structure Match where
  distance : Int
  n : Int
  deriving DecidableEq, Repr

/-- The Go type `lit`, `lit{b: ...}`. -/
structure lit where
  b : Byte
  deriving DecidableEq, Repr

/-- The Go interface `operation`, implemented by `lit` and `match`. -/
inductive operation where
  | ofLit (l : lit)
  | ofMatch (m : Match)
  deriving DecidableEq, Repr

/-- Modelled from the spec: the method `Len` of `lit` and `match` is declared
outside `greedy.go`.  "Literal: carries exactly one raw byte; length is always
1"; a Match exposes its `length`. -/
def operation.Len : operation → Int
  | .ofLit _ => 1
  | .ofMatch m => m.n

/-- The dictionary `hashDict` as `greedy.go` uses it: the field `head`, and
`heap` for what the fields `buf` and `t4` hold (buffer contents, buffer bounds
and hash table).  The type is declared outside `greedy.go`, which reads
`d.head` and `d.buf.top` and passes the dictionary to the calls gathered in
`Facade`. -/
structure hashDict (β : Type) where
  heap : β
  head : Int

/-- The calls `greedy.go` makes on code declared elsewhere, taken as
parameters:
`MaxLength`, `d.buf.top`, `d.start()`, `d.buf.equalBytes(off1, off2, max)`,
`d.buf.ReadAt(p, off)` (given `len(p)`, it yields the bytes `p[:n]` it stored
and its error), `d.t4.Offsets(p)` and `d.move(n)`. -/
structure Facade (β : Type) where
  MaxLength : Int
  top : β → Int
  start : hashDict β → Int
  equalBytes : β → Int → Int → Int → Int
  ReadAt : β → Nat → Int → List Byte × Option Error
  Offsets : β → List Byte → List Int
  move : hashDict β → Int → Except Error (hashDict β)

variable {β : Type}

/-- One iteration of the loop of `bestMatch` on the running pair
`(off, length)`. -/
def bestMatchStep (F : Facade β) (d : hashDict β) (o : Int) (acc : Int × Int) : Int × Int :=
  let n := F.equalBytes d.heap d.head o F.MaxLength
  if n ≥ acc.2 then (o, n) else acc

/-- The loop of `bestMatch`: `for i := len(offsets) - 1; i >= 0; i--`, started
from `off = -1`, `length = 1`.  `foldr` applies the step to the last element
first. -/
def bestMatchScan (F : Facade β) (d : hashDict β) (offsets : List Int) : Int × Int :=
  offsets.foldr (bestMatchStep F d) (-1, 1)

/-- The function `bestMatch(d, offsets)`: the scan, then the test
`off < 0 || length == 1` that reports `errNoMatch`. -/
def bestMatch (F : Facade β) (d : hashDict β) (offsets : List Int) : Except Error Match :=
  let r := bestMatchScan F d offsets
  if r.1 < 0 ∨ r.2 = 1 then
    .error .errNoMatch
  else
    .ok { distance := d.head - r.1, n := r.2 }

/-- One iteration of the first loop of `potentialOffsets`. -/
def shortStep (start head : Int) (offs : List Int) (i : Nat) : List Int :=
  let off := head - (i : Int)
  if start ≤ off then offs ++ [off] else offs

/-- The function `potentialOffsets(d, p)`: the loop `for i := 1; i < 11; i++`, then the
hash table offsets when `len(p) == 4`. -/
def potentialOffsets (F : Facade β) (d : hashDict β) (p : List Byte) : List Int :=
  let start := F.start d
  let offs := (List.range' 1 10).foldl (shortStep start d.head) []
  if p.length = 4 then offs ++ F.Offsets d.heap p else offs

/-- The function `findOp(d)`.  The read result is the list `p[:n]`, so `n <= 0` is the empty
list and `p[0]` its first element. -/
def findOp (F : Facade β) (d : hashDict β) : Except Error operation :=
  let r := F.ReadAt d.heap 4 d.head
  if r.2 ≠ none ∧ r.2 ≠ some Error.EOF then
    .error (r.2.getD Error.EOF)
  else
    match r.1 with
    | [] => .error .errEmptyBuf
    | b :: _ =>
      let offs := potentialOffsets F d r.1
      match bestMatch F d offs with
      | .error .errNoMatch => .ok (.ofLit { b := b })
      | .error e => .error e
      | .ok m => .ok (.ofMatch m)

/-- The loop `for d.head < d.buf.top` of `findOps` on the working copy `d`,
with the operations collected so far.  `none` means the iteration bound
`fuel` was used up before the loop condition became false. -/
def findOpsLoop (F : Facade β) :
    Nat → hashDict β → List operation → Option (Except Error (List operation × hashDict β))
  | 0, d, ops =>
    if d.head < F.top d.heap then none else some (.ok (ops, d))
  | fuel + 1, d, ops =>
    if d.head < F.top d.heap then
      match findOp F d with
      | .error e => some (.error e)
      | .ok op =>
        match F.move d op.Len with
        | .error e => some (.error e)
        | .ok d1 => findOpsLoop F fuel d1 (ops ++ [op])
    else some (.ok (ops, d))

/-- The method `greedyFinder.findOps(s, all)` on the dictionary of the state `s`:
the loop on a copy of the dictionary, then, without `all`, the cut
`ops[:len(ops)-1]` of a sequence that is not empty. -/
def findOps (F : Facade β) (fuel : Nat) (s : hashDict β) (all : Bool) :
    Option (Except Error (List operation)) :=
  match findOpsLoop F fuel s [] with
  | none => none
  | some (.error e) => some (.error e)
  | some (.ok (ops, _)) =>
    if all = false ∧ ops.length > 0 then
      some (.ok (ops.take (ops.length - 1)))
    else
      some (.ok ops)

/-- The capped run length `d.buf.equalBytes(d.head, o, MaxLength)` of the
candidate offset `o`, as `bestMatch` computes it. -/
def runAt (F : Facade β) (d : hashDict β) (o : Int) : Int :=
  F.equalBytes d.heap d.head o F.MaxLength

/-! ## A list-backed dictionary -/

/-- Modelled from the spec: buffer and hash table are declared outside
`greedy.go`.  A dictionary whose data are the bytes `data` at the positions
`0 .. data.length - 1`, with a window of `size` bytes and the positions
recorded in the index, most recent first. -/
structure Store where
  data : List Byte
  size : Int
  index : List Int
  deriving DecidableEq, Repr

/-- The byte at an absolute position, when there is one. -/
def Store.byteAt (s : Store) (pos : Int) : Option Byte :=
  if 0 ≤ pos then s.data.get? pos.toNat else none

/-- Modelled from the spec: `bufferTop`, the "exclusive upper bound of data
currently available". -/
def Store.top (s : Store) : Int := s.data.length

/-- Count of equal bytes at `a`, `a+1`, ... and `b`, `b+1`, ..., at most
`cap`. -/
def Store.run (s : Store) : Nat → Int → Int → Int
  | 0, _, _ => 0
  | cap + 1, a, b =>
    match s.byteAt a, s.byteAt b with
    | some x, some y => if x = y then 1 + Store.run s cap (a + 1) (b + 1) else 0
    | _, _ => 0

/-- Modelled from the spec: `equalRunLength(posA, posB, maxLen)`, the "count of
matching bytes starting at the two positions, capped at `maxLen`". -/
def Store.equalBytes (s : Store) (a b max : Int) : Int :=
  s.run max.toNat a b

/-- Modelled from the spec: `readAt(buf, pos)`, a "best-effort read, `err =
EOF`-like only at true end of data, any other error is fatal".  Positions
outside `0 .. top` give the other error. -/
def Store.ReadAt (s : Store) (len : Nat) (off : Int) : List Byte × Option Error :=
  if off < 0 ∨ s.top < off then ([], some (Error.other 1))
  else
    let bs := (s.data.drop off.toNat).take len
    (bs, if bs.length < len then some Error.EOF else none)

/-- Modelled from the spec: `candidateOffsets(prefixBytes)`, the recorded
"positions sharing the given prefix", most recently inserted first. -/
def Store.Offsets (s : Store) (p : List Byte) : List Int :=
  s.index.filter (fun i => decide (0 ≤ i) && decide ((s.data.drop i.toNat).take p.length = p))

/-- Modelled from the spec: `windowStart`, "the oldest position whose distance
is still representable/allowed". -/
def Store.start (d : hashDict Store) : Int :=
  max 0 (d.head - d.heap.size)

/-- Modelled from the spec: `advance(n)`, which "commits consumption of `n`
bytes, updates internal indices, fails only on out-of-range `n`".  The
positions passed over are recorded in the index. -/
def Store.move (d : hashDict Store) (n : Int) : Except Error (hashDict Store) :=
  if n < 0 ∨ d.heap.top < d.head + n then .error (Error.other 2)
  else
    .ok { heap := { d.heap with
                    index := ((List.range n.toNat).map (fun k => d.head + (k : Int))).reverse
                              ++ d.heap.index },
          head := d.head + n }

/-- The list-backed dictionary as a `Facade`, for a given `MaxLength`. -/
def storeFacade (maxLength : Int) : Facade Store where
  MaxLength := maxLength
  top := Store.top
  start := Store.start
  equalBytes := Store.equalBytes
  ReadAt := Store.ReadAt
  Offsets := Store.Offsets
  move := Store.move

/-- The dictionary over `data` with head `head`, window size `size` and an
empty index. -/
def mkDict (data : List Byte) (size head : Int) : hashDict Store :=
  { heap := { data := data, size := size, index := [] }, head := head }

/-- The bytes of "abcabcabc". -/
def abcabcabc : List Byte := [97, 98, 99, 97, 98, 99, 97, 98, 99]

/-- The dictionary over "abcabcabc" with the given window size, index and
head. -/
def abcDict (size : Int) (index : List Int) (head : Int) : hashDict Store :=
  { heap := { data := abcabcabc, size := size, index := index }, head := head }

/-! ## The contract of the dictionary calls -/

/-- Modelled from the spec: `advance(n)` "commits consumption of `n` bytes":
a successful `d.move(n)` moves the head by `n` and leaves `bufferTop`, the
bound of the data available, where it is. -/
def Facade.MoveAdvances (F : Facade β) : Prop :=
  ∀ (d : hashDict β) (n : Int) (d1 : hashDict β),
    F.move d n = .ok d1 → d1.head = d.head + n ∧ F.top d1.heap = F.top d.heap

/-- Modelled from the spec: `equalRunLength` is a "count of matching bytes
starting at the two positions"; the bytes counted at the first position lie
below `bufferTop`, the "exclusive upper bound of data currently available". -/
def Facade.RunWithinData (F : Facade β) : Prop :=
  ∀ (h : β) (a b max : Int), a ≤ F.top h → F.equalBytes h a b max ≤ F.top h - a

/-- Modelled from the spec: the count of `equalRunLength` is "capped at
`maxLen`", here for the one cap `bestMatch` passes, `MaxLength`. -/
def Facade.RunCapped (F : Facade β) : Prop :=
  ∀ (h : β) (a b : Int), F.equalBytes h a b F.MaxLength ≤ F.MaxLength

/-- The short-distance candidates of `potentialOffsets`: `head - i` for
`i = 1, ..., 10`, in that order, kept when not below the window start. -/
def shortOffsets (start head : Int) : List Int :=
  [head - 1, head - 2, head - 3, head - 4, head - 5, head - 6, head - 7, head - 8,
    head - 9, head - 10].filter (fun o => decide (start ≤ o))

/-- The bytes of "abcdeabcde". -/
def abcdeabcde : List Byte := [97, 98, 99, 100, 101, 97, 98, 99, 100, 101]

/-- Modelled from the spec: `readAt` is a "best-effort read" of the "data
currently available": the bytes it returns lie below `bufferTop`, so a read at
`off` returns at most `bufferTop - off` of them ("Reads that hit the natural
end of available data ... use whatever bytes were actually returned"). -/
def Facade.ReadWithinData (F : Facade β) : Prop :=
  ∀ (h : β) (len : Nat) (off : Int), off ≤ F.top h →
    ((F.ReadAt h len off).1.length : Int) ≤ F.top h - off

/-- The first `k` turns of the loop of `findOps`, when all of them succeed:
the working copy and the operations collected after them. -/
def loopSteps (F : Facade β) :
    Nat → hashDict β → List operation → Option (hashDict β × List operation)
  | 0, d, ops => some (d, ops)
  | k + 1, d, ops =>
    if d.head < F.top d.heap then
      match findOp F d with
      | .error _ => none
      | .ok op =>
        match F.move d op.Len with
        | .error _ => none
        | .ok d1 => loopSteps F k d1 (ops ++ [op])
    else none

/-- The byte of a byte string at an absolute position, counted from 0. -/
def byteOf (data : List Byte) (pos : Int) : Option Byte :=
  if 0 ≤ pos then data.get? pos.toNat else none

/-- The operations `ops` parse the bytes `data` from the position `h` on: a
literal carries the byte at its position; a match of distance `d` and length
`n` at the position `h` ends at or before `top` and repeats, byte by byte, the
`n` bytes that start `d` positions back. -/
def SoundParse (data : List Byte) (top : Int) : Int → List operation → Prop
  | _, [] => True
  | h, .ofLit l :: rest =>
    byteOf data h = some l.b ∧ SoundParse data top (h + 1) rest
  | h, .ofMatch m :: rest =>
    h + m.n ≤ top ∧
    (∀ j : Int, 0 ≤ j → j < m.n →
      ∃ x, byteOf data (h + j) = some x ∧ byteOf data (h - m.distance + j) = some x) ∧
    SoundParse data top (h + m.n) rest

/-- Every match of `ops`, parsed from the position `h` on, points back into
the bytes before its position: `1 <= distance <= h`. -/
def BackWithin : Int → List operation → Prop
  | _, [] => True
  | h, .ofLit _ :: rest => BackWithin (h + 1) rest
  | h, .ofMatch m :: rest =>
    (1 ≤ m.distance ∧ m.distance ≤ h) ∧ BackWithin (h + m.n) rest

/-- Modelled from the spec: the copy of a match in the "decode" of §8, which
is outside `greedy.go`: `n` bytes are copied from `dist` back, one at a time,
so that a match may run into the bytes it produces.  No result when `dist` is
0 or reaches before the first byte. -/
def copyBack (dist : Nat) : Nat → List Byte → Option (List Byte)
  | 0, out => some out
  | n + 1, out =>
    if 1 ≤ dist ∧ dist ≤ out.length then
      match out.get? (out.length - dist) with
      | some x => copyBack dist n (out ++ [x])
      | none => none
    else none

/-- Modelled from the spec: the "decode" of an operation sequence of §8, which
is outside `greedy.go`: a literal appends its byte, a match copies `n` bytes
from `distance` back.  The bytes `out` are the ones decoded so far. -/
def decodeOps : List operation → List Byte → Option (List Byte)
  | [], out => some out
  | .ofLit l :: rest, out => decodeOps rest (out ++ [l.b])
  | .ofMatch m :: rest, out =>
    if 1 ≤ m.distance ∧ 0 ≤ m.n then
      match copyBack m.distance.toNat m.n.toNat out with
      | some out1 => decodeOps rest out1
      | none => none
    else none

/-- The sum of the lengths of a sequence of operations. -/
def totalLen (ops : List operation) : Int := (ops.map operation.Len).sum

/-- Modelled from the spec: what the calls on the dictionary say about its
bytes.  `stream h` are the bytes at the positions `0` to `bufferTop - 1`;
`readAt` returns the bytes found at the position read; `equalRunLength` is a
"count of matching bytes starting at the two positions", so each counted pair
of bytes exists and is equal; `advance` does not change the bytes. -/
def Facade.ReadsData (F : Facade β) (stream : β → List Byte) : Prop :=
  (∀ h : β, F.top h = (stream h).length) ∧
  (∀ (h : β) (off : Int) (b : Byte) (rest : List Byte),
    (F.ReadAt h 4 off).1 = b :: rest → byteOf (stream h) off = some b) ∧
  (∀ (h : β) (a b max j : Int), 0 ≤ j → j < F.equalBytes h a b max →
    ∃ x, byteOf (stream h) (a + j) = some x ∧ byteOf (stream h) (b + j) = some x) ∧
  (∀ (d : hashDict β) (n : Int) (d1 : hashDict β),
    F.move d n = .ok d1 → stream d1.heap = stream d.heap)

/-- The hash table of the dictionary `d` returns only positions below the
head. -/
def Facade.OffsetsBelow (F : Facade β) (d : hashDict β) : Prop :=
  ∀ (p : List Byte), ∀ o ∈ F.Offsets d.heap p, o < d.head

/-- Modelled from the spec: `advance(n)` "updates internal indices" for the
positions it passes over, which lie below the new head: a hash table that
returned only positions below the head still does so after an advance. -/
def Facade.MoveKeepsBelow (F : Facade β) : Prop :=
  ∀ (d : hashDict β) (n : Int) (d1 : hashDict β),
    F.OffsetsBelow d → 0 ≤ n → F.move d n = .ok d1 → F.OffsetsBelow d1

/-- The bytes of "abcdefghijklabcdef". -/
def abcdefghijklabcdef : List Byte :=
  [97, 98, 99, 100, 101, 102, 103, 104, 105, 106, 107, 108, 97, 98, 99, 100, 101, 102]

/-- A relation between dictionaries that the calls of `greedy.go` cannot tell
apart: related dictionaries have the same head, the same `d.buf.top` and
`d.start()`, the same read at the head, the same run length at every candidate
offset and the same hash table offsets for every key, and `d.move(n)` either
fails on both with the same error or leads to related dictionaries. -/
def Facade.SameContents (F : Facade β) (R : hashDict β → hashDict β → Prop) : Prop :=
  ∀ a b : hashDict β, R a b →
    a.head = b.head ∧
    F.top a.heap = F.top b.heap ∧
    F.start a = F.start b ∧
    F.ReadAt a.heap 4 a.head = F.ReadAt b.heap 4 b.head ∧
    (∀ o : Int, F.equalBytes a.heap a.head o F.MaxLength =
      F.equalBytes b.heap b.head o F.MaxLength) ∧
    (∀ p : List Byte, F.Offsets a.heap p = F.Offsets b.heap p) ∧
    (∀ n : Int,
      (∃ a1 b1, F.move a n = .ok a1 ∧ F.move b n = .ok b1 ∧ R a1 b1) ∨
      (∃ e, F.move a n = .error e ∧ F.move b n = .error e))

/-- Two list-backed dictionaries with the same head, data and index, whose
windows both hold all of the data. -/
def sameButWindow (a b : hashDict Store) : Prop :=
  a.head = b.head ∧ a.heap.data = b.heap.data ∧ a.heap.index = b.heap.index ∧
  0 ≤ a.head ∧ a.head ≤ a.heap.top ∧ a.heap.top ≤ a.heap.size ∧ a.heap.top ≤ b.heap.size

/-- Modelled from the spec: "new data comes in", the write to the buffer,
which is outside `greedy.go`.  The bytes `more` follow the data; head, window
and index stay as they are. -/
def appendData (d : hashDict Store) (more : List Byte) : hashDict Store :=
  { d with heap := { d.heap with data := d.heap.data ++ more } }

/-! ## The scan of `bestMatch` -/

theorem bestMatchScan_cons (F : Facade β) (d : hashDict β) (a : Int) (t : List Int) :
    bestMatchScan F d (a :: t) = bestMatchStep F d a (bestMatchScan F d t) := rfl

/-- What the scan leaves behind: either nothing was ever selected, or the
selected offset is the first of the list whose run length is the largest. -/
theorem bestMatchScan_cases (F : Facade β) (d : hashDict β) (l : List Int) :
    (bestMatchScan F d l = (-1, 1) ∧ ∀ o ∈ l, runAt F d o < 1) ∨
    (∃ l1 l2, l = l1 ++ (bestMatchScan F d l).1 :: l2 ∧
      (bestMatchScan F d l).2 = runAt F d (bestMatchScan F d l).1 ∧
      1 ≤ (bestMatchScan F d l).2 ∧
      (∀ o ∈ l1, runAt F d o < (bestMatchScan F d l).2) ∧
      (∀ o ∈ l2, runAt F d o ≤ (bestMatchScan F d l).2)) := by
  induction l with
  | nil => left; exact ⟨rfl, by simp⟩
  | cons a t ih =>
    rw [bestMatchScan_cons]
    by_cases hge : runAt F d a ≥ (bestMatchScan F d t).2
    · have hstep : bestMatchStep F d a (bestMatchScan F d t) = (a, runAt F d a) := by
        unfold bestMatchStep runAt at *
        simp only [hge, if_true]
      right
      rw [hstep]
      refine ⟨[], t, rfl, rfl, ?_, by simp, ?_⟩
      · rcases ih with ⟨h0, _⟩ | ⟨_, _, _, _, h1, _, _⟩
        · rw [h0] at hge; exact hge
        · exact le_trans h1 hge
      · intro o ho
        rcases ih with ⟨h0, hall⟩ | ⟨l1, l2, hl, heq, _, hlt, hle⟩
        · rw [h0] at hge
          have := hall o ho
          show runAt F d o ≤ runAt F d a
          have hge1 : (1 : Int) ≤ runAt F d a := hge
          omega
        · show runAt F d o ≤ runAt F d a
          rw [hl] at ho
          rcases List.mem_append.mp ho with h | h
          · have := hlt o h; omega
          · rcases List.mem_cons.mp h with h | h
            · rw [h, ← heq]; exact hge
            · have := hle o h; omega
    · have hstep : bestMatchStep F d a (bestMatchScan F d t) = bestMatchScan F d t := by
        unfold bestMatchStep runAt at *
        simp only [hge, if_false]
      rw [hstep]
      have hlt : runAt F d a < (bestMatchScan F d t).2 := lt_of_not_ge hge
      rcases ih with ⟨h0, hall⟩ | ⟨l1, l2, hl, heq, h1, hl1, hl2⟩
      · left
        refine ⟨h0, ?_⟩
        intro o ho
        rcases List.mem_cons.mp ho with h | h
        · rw [h]; rw [h0] at hlt; exact hlt
        · exact hall o h
      · right
        refine ⟨a :: l1, l2, ?_, heq, h1, ?_, hl2⟩
        · rw [List.cons_append, ← hl]
        · intro o ho
          rcases List.mem_cons.mp ho with h | h
          · rw [h]; exact hlt
          · exact hl1 o h

/-- A match returned by `bestMatch` comes from the first candidate of the list
with the largest run length; that candidate is not negative and its run
length is at least 2. -/
theorem bestMatch_eq_ok (F : Facade β) (d : hashDict β) (l : List Int) (m : Match)
    (h : bestMatch F d l = .ok m) :
    ∃ l1 l2 o, l = l1 ++ o :: l2 ∧ 0 ≤ o ∧
      m = { distance := d.head - o, n := runAt F d o } ∧ 2 ≤ runAt F d o ∧
      (∀ x ∈ l1, runAt F d x < runAt F d o) ∧ (∀ x ∈ l2, runAt F d x ≤ runAt F d o) := by
  unfold bestMatch at h
  simp only at h
  split at h
  · cases h
  · rename_i hc
    have hm : m = { distance := d.head - (bestMatchScan F d l).1, n := (bestMatchScan F d l).2 } := by
      injection h with h; exact h.symm
    have hc1 : ¬ (bestMatchScan F d l).1 < 0 := fun h1 => hc (Or.inl h1)
    have hc2 : ¬ (bestMatchScan F d l).2 = 1 := fun h2 => hc (Or.inr h2)
    rcases bestMatchScan_cases F d l with ⟨h0, _⟩ | ⟨l1, l2, hl, heq, h1, hl1, hl2⟩
    · rw [h0] at hc2; exact absurd rfl hc2
    · refine ⟨l1, l2, (bestMatchScan F d l).1, hl, by omega, ?_, ?_, ?_, ?_⟩
      · rw [hm, heq]
      · rw [← heq]; omega
      · rw [← heq]; exact hl1
      · rw [← heq]; exact hl2

/-- The only error of `bestMatch` is `errNoMatch`. -/
theorem bestMatch_eq_error (F : Facade β) (d : hashDict β) (l : List Int) (e : Error)
    (h : bestMatch F d l = .error e) : e = Error.errNoMatch := by
  unfold bestMatch at h
  simp only at h
  split at h
  · injection h with h; exact h.symm
  · cases h

/-- The function `bestMatch` reports no match exactly when the scan kept a negative offset
or the length 1. -/
theorem bestMatch_eq_error_iff (F : Facade β) (d : hashDict β) (l : List Int) :
    bestMatch F d l = .error Error.errNoMatch ↔
      ((bestMatchScan F d l).1 < 0 ∨ (bestMatchScan F d l).2 = 1) := by
  unfold bestMatch
  simp only
  split
  · rename_i hc; simp [hc]
  · rename_i hc; simp [hc]

/-! ## `findOp` -/

/-- The two ways `findOp` returns an operation. -/
theorem findOp_eq_ok (F : Facade β) (d : hashDict β) (op : operation)
    (h : findOp F d = .ok op) :
    ∃ b rest, (F.ReadAt d.heap 4 d.head).1 = b :: rest ∧
      ((F.ReadAt d.heap 4 d.head).2 = none ∨ (F.ReadAt d.heap 4 d.head).2 = some Error.EOF) ∧
      ((bestMatch F d (potentialOffsets F d (b :: rest)) = .error Error.errNoMatch ∧
          op = .ofLit { b := b }) ∨
        ∃ m, bestMatch F d (potentialOffsets F d (b :: rest)) = .ok m ∧ op = .ofMatch m) := by
  unfold findOp at h
  simp only at h
  split at h
  · cases h
  · rename_i hc
    have herr : (F.ReadAt d.heap 4 d.head).2 = none ∨
        (F.ReadAt d.heap 4 d.head).2 = some Error.EOF := by
      by_cases h1 : (F.ReadAt d.heap 4 d.head).2 = none
      · exact Or.inl h1
      · by_cases h2 : (F.ReadAt d.heap 4 d.head).2 = some Error.EOF
        · exact Or.inr h2
        · exact absurd ⟨h1, h2⟩ hc
    split at h
    · cases h
    · rename_i b rest hr
      refine ⟨b, rest, hr, herr, ?_⟩
      rw [hr] at h
      split at h
      · rename_i hb
        left
        refine ⟨hb, ?_⟩
        injection h with h; exact h.symm
      · cases h
      · rename_i m hb
        right
        refine ⟨m, hb, ?_⟩
        injection h with h; exact h.symm

/-- An operation of `findOp` consumes at least one byte. -/
theorem findOp_len_pos (F : Facade β) (d : hashDict β) (op : operation)
    (h : findOp F d = .ok op) : 1 ≤ op.Len := by
  obtain ⟨b, rest, _, _, hcase⟩ := findOp_eq_ok F d op h
  rcases hcase with ⟨_, hop⟩ | ⟨m, hb, hop⟩
  · rw [hop]; exact le_refl _
  · obtain ⟨_, _, o, _, _, hm, h2, _, _⟩ := bestMatch_eq_ok F d _ m hb
    rw [hop, hm]
    show 1 ≤ runAt F d o
    omega

/-- An operation of `findOp` does not reach beyond the data available. -/
theorem findOp_len_le (F : Facade β) (hrun : F.RunWithinData) (d : hashDict β)
    (op : operation) (hlt : d.head < F.top d.heap) (h : findOp F d = .ok op) :
    op.Len ≤ F.top d.heap - d.head := by
  obtain ⟨b, rest, _, _, hcase⟩ := findOp_eq_ok F d op h
  rcases hcase with ⟨_, hop⟩ | ⟨m, hb, hop⟩
  · rw [hop]
    show (1 : Int) ≤ F.top d.heap - d.head
    omega
  · obtain ⟨_, _, o, _, _, hm, _, _, _⟩ := bestMatch_eq_ok F d _ m hb
    rw [hop, hm]
    show runAt F d o ≤ F.top d.heap - d.head
    exact hrun d.heap d.head o F.MaxLength (le_of_lt hlt)

/-! ## The loop of `findOps` -/

theorem findOpsLoop_done (F : Facade β) (fuel : Nat) (d : hashDict β) (acc : List operation)
    (h : ¬ d.head < F.top d.heap) : findOpsLoop F fuel d acc = some (.ok (acc, d)) := by
  cases fuel <;> simp [findOpsLoop, h]

/-- One turn of the loop that ends well went through a successful `findOp`
and a successful `move`. -/
theorem findOpsLoop_succ_ok (F : Facade β) (fuel : Nat) (d : hashDict β)
    (acc : List operation) (r : List operation × hashDict β)
    (hlt : d.head < F.top d.heap)
    (h : findOpsLoop F (fuel + 1) d acc = some (.ok r)) :
    ∃ op d1, findOp F d = .ok op ∧ F.move d op.Len = .ok d1 ∧
      findOpsLoop F fuel d1 (acc ++ [op]) = some (.ok r) := by
  simp only [findOpsLoop, hlt, if_true] at h
  split at h
  · cases h
  · rename_i op hop
    split at h
    · cases h
    · rename_i d1 hmv
      exact ⟨op, d1, hop, hmv, h⟩

/-- With `move` advancing the head and runs staying within the data, the
lengths collected by the loop add up to the distance from the head to
`bufferTop`, and the loop stops with the head at `bufferTop`. -/
theorem findOpsLoop_sum (F : Facade β) (hmove : F.MoveAdvances) (hrun : F.RunWithinData) :
    ∀ (fuel : Nat) (d : hashDict β) (acc ops : List operation) (d2 : hashDict β),
      d.head ≤ F.top d.heap → findOpsLoop F fuel d acc = some (.ok (ops, d2)) →
      (ops.map operation.Len).sum = (acc.map operation.Len).sum + (F.top d.heap - d.head) ∧
        d2.head = F.top d.heap ∧ F.top d2.heap = F.top d.heap := by
  intro fuel
  induction fuel with
  | zero =>
    intro d acc ops d2 hle h
    by_cases hlt : d.head < F.top d.heap
    · simp [findOpsLoop, hlt] at h
    · rw [findOpsLoop_done F 0 d acc hlt] at h
      simp only [Option.some.injEq, Except.ok.injEq, Prod.mk.injEq] at h
      obtain ⟨h1, h2⟩ := h
      subst h1; subst h2
      have : d.head = F.top d.heap := by omega
      refine ⟨by omega, this, rfl⟩
  | succ k ih =>
    intro d acc ops d2 hle h
    by_cases hlt : d.head < F.top d.heap
    · obtain ⟨op, d1, hop, hmv, hrest⟩ := findOpsLoop_succ_ok F k d acc (ops, d2) hlt h
      obtain ⟨hhead, htop⟩ := hmove d op.Len d1 hmv
      have hlen := findOp_len_le F hrun d op hlt hop
      have hle1 : d1.head ≤ F.top d1.heap := by rw [hhead, htop]; omega
      obtain ⟨hs, hh, ht⟩ := ih d1 (acc ++ [op]) ops d2 hle1 hrest
      refine ⟨?_, ?_, ?_⟩
      · rw [hs, htop, hhead]
        simp only [List.map_append, List.sum_append, List.map_cons, List.map_nil,
          List.sum_cons, List.sum_nil]
        omega
      · rw [hh, htop]
      · rw [ht, htop]
    · rw [findOpsLoop_done F (k + 1) d acc hlt] at h
      simp only [Option.some.injEq, Except.ok.injEq, Prod.mk.injEq] at h
      obtain ⟨h1, h2⟩ := h
      subst h1; subst h2
      have : d.head = F.top d.heap := by omega
      refine ⟨by omega, this, rfl⟩

/-- With `all` set, `findOps` returns the operations of the loop. -/
theorem findOps_true_eq (F : Facade β) (fuel : Nat) (s : hashDict β) (ops : List operation)
    (h : findOps F fuel s true = some (.ok ops)) :
    ∃ d2, findOpsLoop F fuel s [] = some (.ok (ops, d2)) := by
  unfold findOps at h
  split at h
  · cases h
  · cases h
  · rename_i ops1 d2 hl
    simp only [Bool.true_eq_false, false_and, if_false, Option.some.injEq,
      Except.ok.injEq] at h
    subst h
    exact ⟨d2, hl⟩

/-! ## The list-backed dictionary keeps the contract -/

theorem Store.byteAt_some_lt (s : Store) (pos : Int) (x : Byte)
    (h : s.byteAt pos = some x) : 0 ≤ pos ∧ pos < s.top := by
  unfold Store.byteAt at h
  split at h
  · rename_i h0
    have hlt : pos.toNat < s.data.length := by
      by_contra hge
      rw [List.get?_eq_none.mpr (not_lt.mp hge)] at h
      cases h
    refine ⟨h0, ?_⟩
    unfold Store.top
    omega
  · cases h

theorem Store.run_nonneg (s : Store) : ∀ (cap : Nat) (a b : Int), 0 ≤ s.run cap a b := by
  intro cap
  induction cap with
  | zero => intro a b; simp [Store.run]
  | succ k ih =>
    intro a b
    unfold Store.run
    split
    · split
      · have := ih (a + 1) (b + 1); omega
      · exact le_refl _
    · exact le_refl _

theorem Store.run_le_cap (s : Store) : ∀ (cap : Nat) (a b : Int), s.run cap a b ≤ cap := by
  intro cap
  induction cap with
  | zero => intro a b; simp [Store.run]
  | succ k ih =>
    intro a b
    unfold Store.run
    split
    · split
      · have := ih (a + 1) (b + 1); push_cast; omega
      · push_cast; omega
    · push_cast; omega

theorem Store.run_le_top (s : Store) :
    ∀ (cap : Nat) (a b : Int), a ≤ s.top → s.run cap a b ≤ s.top - a := by
  intro cap
  induction cap with
  | zero => intro a b h; simp [Store.run]; exact h
  | succ k ih =>
    intro a b h
    unfold Store.run
    split
    · rename_i x y hx hy
      have hb := Store.byteAt_some_lt s a x hx
      split
      · have := ih (a + 1) (b + 1) (by omega); omega
      · omega
    · omega

theorem storeFacade_moveAdvances (maxLength : Int) : (storeFacade maxLength).MoveAdvances := by
  intro d n d1 h
  have h1 : Store.move d n = .ok d1 := h
  unfold Store.move at h1
  split at h1
  · cases h1
  · injection h1 with h1
    subst h1
    exact ⟨rfl, rfl⟩

theorem storeFacade_runWithinData (maxLength : Int) :
    (storeFacade maxLength).RunWithinData := by
  intro h a b max hle
  exact Store.run_le_top h max.toNat a b hle

theorem storeFacade_runCapped (maxLength : Int) (h0 : 0 ≤ maxLength) :
    (storeFacade maxLength).RunCapped := by
  intro h a b
  show Store.run h maxLength.toNat a b ≤ maxLength
  have := Store.run_le_cap h maxLength.toNat a b
  omega

/-! ## The claims -/

/-- C1. When `move` advances the head by the length it is given and
`equalBytes` counts only bytes below `bufferTop`, every successful call of
`findOps` with `all = true` on a dictionary with
`windowStart <= head <= bufferTop` returns operations whose lengths add up to
`bufferTop - head`, whatever the iteration bound of the model. -/
theorem findOps_all_sum_len (F : Facade β) (hmove : F.MoveAdvances)
    (hrun : F.RunWithinData) (fuel : Nat) (s : hashDict β) (ops : List operation)
    (hs : F.start s ≤ s.head ∧ s.head ≤ F.top s.heap)
    (h : findOps F fuel s true = some (.ok ops)) :
    (ops.map operation.Len).sum = F.top s.heap - s.head := by
  obtain ⟨d2, hl⟩ := findOps_true_eq F fuel s ops h
  have := (findOpsLoop_sum F hmove hrun fuel s [] ops d2 hs.2 hl).1
  simpa using this

/-- C1, witness: the dictionary over "abcabcabc" with head 0. -/
theorem findOps_all_sum_len_witness :
    (Store.start (mkDict abcabcabc 100 0) ≤ (mkDict abcabcabc 100 0).head ∧
      (mkDict abcabcabc 100 0).head ≤ Store.top (mkDict abcabcabc 100 0).heap) ∧
    findOps (storeFacade 273) 9 (mkDict abcabcabc 100 0) true =
      some (.ok [.ofLit ⟨97⟩, .ofLit ⟨98⟩, .ofLit ⟨99⟩, .ofMatch ⟨3, 6⟩]) ∧
    (([.ofLit ⟨97⟩, .ofLit ⟨98⟩, .ofLit ⟨99⟩, .ofMatch ⟨3, 6⟩] : List operation).map
      operation.Len).sum = 9 - 0 :=
  ⟨by decide, rfl,
    findOps_all_sum_len (storeFacade 273) (storeFacade_moveAdvances 273)
      (storeFacade_runWithinData 273) 9 (mkDict abcabcabc 100 0) _ (by decide) rfl⟩

theorem Store.run_min (s : Store) :
    ∀ (cap k : Nat) (a b : Int), s.run cap a b = min (cap : Int) (s.run (cap + k) a b) := by
  intro cap
  induction cap with
  | zero =>
    intro k a b
    have := Store.run_nonneg s (0 + k) a b
    simp only [Store.run, Nat.cast_zero]
    omega
  | succ c ih =>
    intro k a b
    have hk : c + 1 + k = (c + k) + 1 := by omega
    rw [hk]
    unfold Store.run
    split
    · split
      · have := ih k (a + 1) (b + 1)
        push_cast
        omega
      · push_cast; omega
    · push_cast; omega

theorem Store.run_le_length (s : Store) (cap : Nat) (a b : Int) :
    s.run cap a b ≤ s.data.length := by
  cases cap with
  | zero => simp [Store.run]
  | succ c =>
    cases hx : s.byteAt a with
    | none => simp [Store.run, hx]
    | some x =>
      have hb := Store.byteAt_some_lt s a x hx
      have := Store.run_le_top s (c + 1) a b (le_of_lt hb.2)
      unfold Store.top at *
      omega

/-- The count of the list-backed dictionary is the uncapped count, cut at the cap. -/
theorem Store.equalBytes_eq_min (s : Store) (a b max : Int) (h0 : 0 ≤ max) :
    s.equalBytes a b max = min max (s.run s.data.length a b) := by
  unfold Store.equalBytes
  by_cases hle : max.toNat ≤ s.data.length
  · obtain ⟨k, hk⟩ := Nat.exists_eq_add_of_le hle
    have := Store.run_min s max.toNat k a b
    rw [← hk] at this
    rw [this]
    congr 1
    omega
  · obtain ⟨k, hk⟩ := Nat.exists_eq_add_of_le (le_of_lt (not_le.mp hle))
    have h1 := Store.run_min s s.data.length k a b
    rw [← hk] at h1
    have h2 := Store.run_le_length s max.toNat a b
    have h3 := Store.run_le_length s s.data.length a b
    omega

/-- One turn of the loop, taken forward. -/
theorem findOpsLoop_step (F : Facade β) (fuel : Nat) (d d1 : hashDict β)
    (acc : List operation) (op : operation) (hlt : d.head < F.top d.heap)
    (hop : findOp F d = .ok op) (hmv : F.move d op.Len = .ok d1) :
    findOpsLoop F (fuel + 1) d acc = findOpsLoop F fuel d1 (acc ++ [op]) := by
  simp only [findOpsLoop, hlt, if_true, hop, hmv]

/-- The result of `findOp` after a read that returned the bytes `b :: rest` and no error
other than `io.EOF`. -/
theorem findOp_of_read (F : Facade β) (d : hashDict β) (b : Byte) (rest : List Byte)
    (e : Option Error) (hr : F.ReadAt d.heap 4 d.head = (b :: rest, e))
    (he : e = none ∨ e = some Error.EOF) :
    findOp F d =
      match bestMatch F d (potentialOffsets F d (b :: rest)) with
      | .error .errNoMatch => .ok (.ofLit { b := b })
      | .error e => .error e
      | .ok m => .ok (.ofMatch m) := by
  unfold findOp
  simp only [hr]
  have hc : ¬ (e ≠ none ∧ e ≠ some Error.EOF) := by
    rintro ⟨h1, h2⟩
    rcases he with h | h
    · exact h1 h
    · exact h2 h
  rw [if_neg hc]

theorem abc_runAt (M size : Int) (index : List Int) (head o : Int) (hM : 0 ≤ M) :
    runAt (storeFacade M) (abcDict size index head) o =
      min M (Store.run { data := abcabcabc, size := size, index := index } 9 head o) :=
  Store.equalBytes_eq_min _ head o M hM

theorem abc_start (size : Int) (index : List Int) (head : Int) (hh : head ≤ 9)
    (hsize : 9 ≤ size) (h0 : 0 ≤ head) : Store.start (abcDict size index head) = 0 := by
  simp only [Store.start, abcDict]; omega

theorem abc_head_lt (M size : Int) (index : List Int) (head : Int) (h : head < 9) :
    (abcDict size index head).head < (storeFacade M).top (abcDict size index head).heap := by
  show head < ((9 : Nat) : Int)
  omega

theorem abc_findOp_0 (M size : Int) (hsize : 9 ≤ size) :
    findOp (storeFacade M) (abcDict size [] 0) = .ok (.ofLit ⟨97⟩) := by
  rw [findOp_of_read (storeFacade M) (abcDict size [] 0) 97 [98, 99, 97] none rfl (Or.inl rfl)]
  have hp : potentialOffsets (storeFacade M) (abcDict size [] 0) [97, 98, 99, 97] = [] := by
    unfold potentialOffsets
    show (if ([97, 98, 99, 97] : List Byte).length = 4 then
      (List.range' 1 10).foldl (shortStep (Store.start (abcDict size [] 0)) 0) [] ++
        Store.Offsets (abcDict size [] 0).heap [97, 98, 99, 97] else _) = _
    rw [abc_start size _ 0 (by omega) hsize (by omega)]
    rfl
  rw [hp]
  rfl

theorem abc_findOp_1 (M size : Int) (hM : 6 ≤ M) (hsize : 9 ≤ size) :
    findOp (storeFacade M) (abcDict size [0] 1) = .ok (.ofLit ⟨98⟩) := by
  rw [findOp_of_read (storeFacade M) (abcDict size [0] 1) 98 [99, 97, 98] none rfl (Or.inl rfl)]
  have hp : potentialOffsets (storeFacade M) (abcDict size [0] 1) [98, 99, 97, 98] = [0] := by
    unfold potentialOffsets
    show (if ([98, 99, 97, 98] : List Byte).length = 4 then
      (List.range' 1 10).foldl (shortStep (Store.start (abcDict size [0] 1)) 1) [] ++
        Store.Offsets (abcDict size [0] 1).heap [98, 99, 97, 98] else _) = _
    rw [abc_start size _ 1 (by omega) hsize (by omega)]
    rfl
  rw [hp]
  have h0 : runAt (storeFacade M) (abcDict size [0] 1) 0 = 0 := by
    rw [abc_runAt M size _ 1 0 (by omega)]
    show min M 0 = 0
    omega
  have hb : bestMatch (storeFacade M) (abcDict size [0] 1) [0] = .error .errNoMatch := by
    unfold bestMatch bestMatchScan
    simp only [List.foldr, bestMatchStep]
    simp only [← runAt.eq_1, h0]
    simp
  rw [hb]

theorem abc_findOp_2 (M size : Int) (hM : 6 ≤ M) (hsize : 9 ≤ size) :
    findOp (storeFacade M) (abcDict size [1, 0] 2) = .ok (.ofLit ⟨99⟩) := by
  rw [findOp_of_read (storeFacade M) (abcDict size [1, 0] 2) 99 [97, 98, 99] none rfl
    (Or.inl rfl)]
  have hp : potentialOffsets (storeFacade M) (abcDict size [1, 0] 2) [99, 97, 98, 99] =
      [1, 0] := by
    unfold potentialOffsets
    show (if ([99, 97, 98, 99] : List Byte).length = 4 then
      (List.range' 1 10).foldl (shortStep (Store.start (abcDict size [1, 0] 2)) 2) [] ++
        Store.Offsets (abcDict size [1, 0] 2).heap [99, 97, 98, 99] else _) = _
    rw [abc_start size _ 2 (by omega) hsize (by omega)]
    rfl
  rw [hp]
  have h0 : runAt (storeFacade M) (abcDict size [1, 0] 2) 0 = 0 := by
    rw [abc_runAt M size _ 2 0 (by omega)]
    show min M 0 = 0
    omega
  have h1 : runAt (storeFacade M) (abcDict size [1, 0] 2) 1 = 0 := by
    rw [abc_runAt M size _ 2 1 (by omega)]
    show min M 0 = 0
    omega
  have hb : bestMatch (storeFacade M) (abcDict size [1, 0] 2) [1, 0] = .error .errNoMatch := by
    unfold bestMatch bestMatchScan
    simp only [List.foldr, bestMatchStep]
    simp only [← runAt.eq_1, h0, h1]
    simp
  rw [hb]

theorem abc_findOp_3 (M size : Int) (hM : 6 ≤ M) (hsize : 9 ≤ size) :
    findOp (storeFacade M) (abcDict size [2, 1, 0] 3) = .ok (.ofMatch ⟨3, 6⟩) := by
  rw [findOp_of_read (storeFacade M) (abcDict size [2, 1, 0] 3) 97 [98, 99, 97] none rfl
    (Or.inl rfl)]
  have hp : potentialOffsets (storeFacade M) (abcDict size [2, 1, 0] 3) [97, 98, 99, 97] =
      [2, 1, 0, 0] := by
    unfold potentialOffsets
    show (if ([97, 98, 99, 97] : List Byte).length = 4 then
      (List.range' 1 10).foldl (shortStep (Store.start (abcDict size [2, 1, 0] 3)) 3) [] ++
        Store.Offsets (abcDict size [2, 1, 0] 3).heap [97, 98, 99, 97] else _) = _
    rw [abc_start size _ 3 (by omega) hsize (by omega)]
    rfl
  rw [hp]
  have h2 : runAt (storeFacade M) (abcDict size [2, 1, 0] 3) 2 = 0 := by
    rw [abc_runAt M size _ 3 2 (by omega)]
    show min M 0 = 0
    omega
  have h1 : runAt (storeFacade M) (abcDict size [2, 1, 0] 3) 1 = 0 := by
    rw [abc_runAt M size _ 3 1 (by omega)]
    show min M 0 = 0
    omega
  have h0 : runAt (storeFacade M) (abcDict size [2, 1, 0] 3) 0 = 6 := by
    rw [abc_runAt M size _ 3 0 (by omega)]
    show min M 6 = 6
    omega
  have hb : bestMatch (storeFacade M) (abcDict size [2, 1, 0] 3) [2, 1, 0, 0] =
      .ok ⟨3, 6⟩ := by
    unfold bestMatch bestMatchScan
    simp only [List.foldr, bestMatchStep]
    simp only [← runAt.eq_1, h0, h1, h2]
    simp [abcDict]
  rw [hb]

/-- C2. For the dictionary with data "abcabcabc", head 0, an empty index, a
window that reaches back to position 0 (`size >= 9`) and any `MaxLength >= 6`,
`findOps` with `all = true` returns Literal 'a', Literal 'b', Literal 'c',
Match(distance 3, length 6), as soon as the iteration bound allows the four
turns of the loop. -/
theorem findOps_abcabcabc (M size : Int) (fuel : Nat) (hM : 6 ≤ M) (hsize : 9 ≤ size)
    (hfuel : 4 ≤ fuel) :
    findOps (storeFacade M) fuel (mkDict abcabcabc size 0) true =
      some (.ok [.ofLit ⟨97⟩, .ofLit ⟨98⟩, .ofLit ⟨99⟩, .ofMatch ⟨3, 6⟩]) := by
  obtain ⟨k, hk⟩ := Nat.exists_eq_add_of_le hfuel
  have hk4 : fuel = k + 1 + 1 + 1 + 1 := by omega
  have hloop : findOpsLoop (storeFacade M) fuel (mkDict abcabcabc size 0) [] =
      some (.ok ([.ofLit ⟨97⟩, .ofLit ⟨98⟩, .ofLit ⟨99⟩, .ofMatch ⟨3, 6⟩],
        abcDict size [8, 7, 6, 5, 4, 3, 2, 1, 0] 9)) := by
    rw [hk4]
    show findOpsLoop (storeFacade M) (k + 1 + 1 + 1 + 1) (abcDict size [] 0) [] = _
    rw [findOpsLoop_step (storeFacade M) (k + 1 + 1 + 1) (abcDict size [] 0)
      (abcDict size [0] 1) [] _ (abc_head_lt M size _ 0 (by omega)) (abc_findOp_0 M size hsize) rfl]
    rw [findOpsLoop_step (storeFacade M) (k + 1 + 1) (abcDict size [0] 1)
      (abcDict size [1, 0] 2) _ _ (abc_head_lt M size _ 1 (by omega)) (abc_findOp_1 M size hM hsize) rfl]
    rw [findOpsLoop_step (storeFacade M) (k + 1) (abcDict size [1, 0] 2)
      (abcDict size [2, 1, 0] 3) _ _ (abc_head_lt M size _ 2 (by omega)) (abc_findOp_2 M size hM hsize) rfl]
    rw [findOpsLoop_step (storeFacade M) k (abcDict size [2, 1, 0] 3)
      (abcDict size [8, 7, 6, 5, 4, 3, 2, 1, 0] 9) _ _ (abc_head_lt M size _ 3 (by omega))
      (abc_findOp_3 M size hM hsize) rfl]
    rw [findOpsLoop_done (storeFacade M) k _ _ (by
      show ¬ (9 : Int) < ((9 : Nat) : Int)
      omega)]
    rfl
  unfold findOps
  rw [hloop]
  rfl

/-- C2, witness: `MaxLength = 273`, a window of 100 bytes, nine turns allowed. -/
theorem findOps_abcabcabc_witness :
    findOps (storeFacade 273) 9 (mkDict abcabcabc 100 0) true =
      some (.ok [.ofLit ⟨97⟩, .ofLit ⟨98⟩, .ofLit ⟨99⟩, .ofMatch ⟨3, 6⟩]) :=
  findOps_abcabcabc 273 100 9 (by decide) (by decide) (by decide)

/-- The scan, with the selected offset named. -/
theorem bestMatchScan_first (F : Facade β) (d : hashDict β) (l : List Int) :
    (bestMatchScan F d l = (-1, 1) ∧ ∀ o ∈ l, runAt F d o < 1) ∨
    (∃ l1 l2 o, l = l1 ++ o :: l2 ∧ bestMatchScan F d l = (o, runAt F d o) ∧
      1 ≤ runAt F d o ∧ (∀ x ∈ l1, runAt F d x < runAt F d o) ∧
      (∀ x ∈ l2, runAt F d x ≤ runAt F d o)) := by
  rcases bestMatchScan_cases F d l with h | ⟨l1, l2, hl, heq, h1, hl1, hl2⟩
  · exact Or.inl h
  · right
    refine ⟨l1, l2, (bestMatchScan F d l).1, hl, ?_, ?_, ?_, ?_⟩
    · exact Prod.ext rfl heq
    · rw [← heq]; exact h1
    · rw [← heq]; exact hl1
    · rw [← heq]; exact hl2

/-- C3. When some candidate of the list has a capped run length of at least 2
(and no candidate with such a run is a negative position), `bestMatch` does
not report no-match: it returns a match whose length is the largest capped
run length of the list and whose distance is `head` minus the offset of a
candidate of the list with that run length. -/
theorem bestMatch_longest (F : Facade β) (d : hashDict β) (offsets : List Int)
    (hpos : ∀ o ∈ offsets, 2 ≤ runAt F d o → 0 ≤ o)
    (h2 : ∃ o ∈ offsets, 2 ≤ runAt F d o) :
    ∃ m, bestMatch F d offsets = .ok m ∧
      (∀ o ∈ offsets, runAt F d o ≤ m.n) ∧
      ∃ o ∈ offsets, runAt F d o = m.n ∧ m.distance = d.head - o := by
  obtain ⟨o2, ho2, hrun2⟩ := h2
  rcases bestMatchScan_first F d offsets with ⟨_, hall⟩ | ⟨l1, l2, o, hl, hscan, _, hl1, hl2⟩
  · have := hall o2 ho2
    omega
  · have hmem : o ∈ offsets := by
      rw [hl]; simp
    have hmax : ∀ x ∈ offsets, runAt F d x ≤ runAt F d o := by
      intro x hx
      rw [hl] at hx
      rcases List.mem_append.mp hx with h | h
      · exact le_of_lt (hl1 x h)
      · rcases List.mem_cons.mp h with h | h
        · rw [h]
        · exact hl2 x h
    have hge2 : 2 ≤ runAt F d o := le_trans hrun2 (hmax o2 ho2)
    have h0 : 0 ≤ o := hpos o hmem hge2
    refine ⟨{ distance := d.head - o, n := runAt F d o }, ?_, hmax, o, hmem, rfl, rfl⟩
    unfold bestMatch
    simp only [hscan]
    rw [if_neg]
    intro hc
    rcases hc with hc | hc
    · omega
    · omega

/-- C3, witness: the candidates 2, 1, 0, 0 at head 3 of "abcabcabc". -/
theorem bestMatch_longest_witness :
    (∃ o ∈ ([2, 1, 0, 0] : List Int),
        2 ≤ runAt (storeFacade 273) (abcDict 100 [2, 1, 0] 3) o) ∧
    ∃ m, bestMatch (storeFacade 273) (abcDict 100 [2, 1, 0] 3) [2, 1, 0, 0] = .ok m ∧
      (∀ o ∈ ([2, 1, 0, 0] : List Int),
        runAt (storeFacade 273) (abcDict 100 [2, 1, 0] 3) o ≤ m.n) ∧
      ∃ o ∈ ([2, 1, 0, 0] : List Int),
        runAt (storeFacade 273) (abcDict 100 [2, 1, 0] 3) o = m.n ∧
          m.distance = (abcDict 100 [2, 1, 0] 3).head - o :=
  ⟨⟨0, by decide, by decide⟩,
    bestMatch_longest (storeFacade 273) (abcDict 100 [2, 1, 0] 3) [2, 1, 0, 0]
      (by decide) ⟨0, by decide, by decide⟩⟩

/-! ## `potentialOffsets` -/

theorem foldl_shortStep (start head : Int) :
    ∀ (l : List Nat) (acc : List Int),
      l.foldl (shortStep start head) acc =
        acc ++ (l.map (fun i : Nat => head - (i : Int))).filter (fun o => decide (start ≤ o)) := by
  intro l
  induction l with
  | nil => intro acc; simp
  | cons i t ih =>
    intro acc
    rw [List.foldl_cons, ih]
    unfold shortStep
    by_cases h : start ≤ head - (i : Int)
    · simp [h]
    · simp [h]

/-- The list of `potentialOffsets`: the short-distance candidates, then the
offsets of the hash table when `p` has 4 bytes. -/
theorem potentialOffsets_split (F : Facade β) (d : hashDict β) (p : List Byte) :
    potentialOffsets F d p =
      shortOffsets (F.start d) d.head ++ (if p.length = 4 then F.Offsets d.heap p else []) := by
  unfold potentialOffsets shortOffsets
  simp only [foldl_shortStep, List.nil_append]
  have hr : (List.range' 1 10).map (fun i : Nat => d.head - (i : Int)) =
      [d.head - 1, d.head - 2, d.head - 3, d.head - 4, d.head - 5, d.head - 6, d.head - 7,
        d.head - 8, d.head - 9, d.head - 10] := by
    simp [List.range']
  rw [hr]
  split
  · rfl
  · simp

/-- C8. `potentialOffsets` returns `head - i` for `i = 1, 2, ..., 10` in that
order, restricted to those not below `d.start()`, followed by exactly the
offsets of the hash table for `p` when `p` has 4 bytes and by nothing
otherwise. -/
theorem potentialOffsets_eq (F : Facade β) (d : hashDict β) (p : List Byte) :
    potentialOffsets F d p =
      [d.head - 1, d.head - 2, d.head - 3, d.head - 4, d.head - 5, d.head - 6, d.head - 7,
        d.head - 8, d.head - 9, d.head - 10].filter (fun o => decide (F.start d ≤ o)) ++
      (if p.length = 4 then F.Offsets d.heap p else []) := by
  unfold potentialOffsets
  simp only [foldl_shortStep, List.nil_append]
  have hr : (List.range' 1 10).map (fun i : Nat => d.head - (i : Int)) =
      [d.head - 1, d.head - 2, d.head - 3, d.head - 4, d.head - 5, d.head - 6, d.head - 7,
        d.head - 8, d.head - 9, d.head - 10] := by
    simp [List.range']
  rw [hr]
  split
  · rfl
  · simp

theorem mem_shortOffsets (start head o : Int) :
    o ∈ shortOffsets start head ↔
      ∃ i : Int, 1 ≤ i ∧ i ≤ 10 ∧ o = head - i ∧ start ≤ o := by
  unfold shortOffsets
  simp only [List.mem_filter, List.mem_cons, List.mem_singleton, List.not_mem_nil, or_false,
    decide_eq_true_eq]
  constructor
  · rintro ⟨h, hs⟩
    refine ⟨head - o, ?_, ?_, by omega, hs⟩ <;> omega
  · rintro ⟨i, h1, h10, ho, hs⟩
    refine ⟨?_, hs⟩
    omega

/-- The short-distance candidates are listed by decreasing offset, that is by
increasing distance. -/
theorem shortOffsets_pairwise (start head : Int) :
    (shortOffsets start head).Pairwise (fun a b => b < a) := by
  unfold shortOffsets
  apply List.Pairwise.filter
  simp only [List.pairwise_cons, List.mem_cons, List.mem_singleton, List.not_mem_nil,
    List.Pairwise.nil, and_true, or_false, false_implies, implies_true]
  refine ⟨?_, ?_, ?_, ?_, ?_, ?_, ?_, ?_, ?_⟩ <;> intro a ha <;> omega

/-- C4. In the candidate list of `potentialOffsets`, when a short-distance
candidate `head - i` (`1 <= i <= 10`, inside the window, the window starting
at a position `>= 0`) has the largest run length of the list and that length
is at least 2, `bestMatch` returns a match of that length whose distance is
the distance `j` of a short-distance candidate, `1 <= j <= 10`, even when
offsets of the hash table have the same run length. -/
theorem bestMatch_tie_short (F : Facade β) (d : hashDict β) (p : List Byte) (i : Int)
    (hstart : 0 ≤ F.start d)
    (hi : 1 ≤ i ∧ i ≤ 10 ∧ F.start d ≤ d.head - i)
    (h2 : 2 ≤ runAt F d (d.head - i))
    (hbest : ∀ o ∈ potentialOffsets F d p, runAt F d o ≤ runAt F d (d.head - i)) :
    ∃ m j, bestMatch F d (potentialOffsets F d p) = .ok m ∧
      m.n = runAt F d (d.head - i) ∧ m.distance = j ∧ 1 ≤ j ∧ j ≤ i ∧
      F.start d ≤ d.head - j ∧ runAt F d (d.head - j) = m.n := by
  have hsplit := potentialOffsets_split F d p
  have hmemS : d.head - i ∈ shortOffsets (F.start d) d.head :=
    (mem_shortOffsets _ _ _).mpr ⟨i, hi.1, hi.2.1, rfl, hi.2.2⟩
  have hmemL : d.head - i ∈ potentialOffsets F d p := by
    rw [hsplit]; exact List.mem_append_left _ hmemS
  rcases bestMatchScan_first F d (potentialOffsets F d p) with
    ⟨_, hall⟩ | ⟨l1, l2, o, hl, hscan, _, hl1, hl2⟩
  · have := hall _ hmemL
    omega
  · have hmem : o ∈ potentialOffsets F d p := by
      rw [hl]; simp
    have hle : runAt F d o ≤ runAt F d (d.head - i) := hbest o hmem
    have hnot : d.head - i ∉ l1 := by
      intro h
      have := hl1 _ h
      omega
    have hge : runAt F d (d.head - i) ≤ runAt F d o := by
      have hm := hmemL
      rw [hl] at hm
      rcases List.mem_append.mp hm with h | h
      · exact absurd h hnot
      · rcases List.mem_cons.mp h with h | h
        · rw [h]
        · exact hl2 _ h
    -- the selected offset lies in the short-distance part of the list, not
    -- after `head - i`
    have hoS : o ∈ shortOffsets (F.start d) d.head ∧ d.head - i ≤ o := by
      rw [hsplit] at hl
      rcases List.append_eq_append_iff.mp hl with ⟨a, ha, _⟩ | ⟨c, hc, hc2⟩
      · exfalso
        apply hnot
        rw [ha]
        exact List.mem_append_left _ hmemS
      · cases c with
        | nil =>
          exfalso
          apply hnot
          rw [List.append_nil] at hc
          rw [← hc]
          exact hmemS
        | cons x c =>
          rw [List.cons_append] at hc2
          injection hc2 with hx _
          subst hx
          refine ⟨by rw [hc]; simp, ?_⟩
          have hpw := shortOffsets_pairwise (F.start d) d.head
          rw [hc] at hpw hmemS
          rcases List.mem_append.mp hmemS with h | h
          · exact absurd h hnot
          · rcases List.mem_cons.mp h with h | h
            · rw [h]
            · have := (List.pairwise_cons.mp (List.pairwise_append.mp hpw).2.1).1 _ h
              omega
    obtain ⟨j, hj1, hj10, hoj, hsj⟩ := (mem_shortOffsets _ _ _).mp hoS.1
    have hji : j ≤ i := by
      have := hoS.2
      omega
    refine ⟨{ distance := d.head - o, n := runAt F d o }, j, ?_, ?_, ?_, hj1, hji, ?_, ?_⟩
    · unfold bestMatch
      simp only [hscan]
      rw [if_neg]
      intro hc
      rcases hc with hc | hc
      · omega
      · omega
    · show runAt F d o = _
      omega
    · show d.head - o = j
      omega
    · rw [hoj] at hsj; exact hsj
    · show runAt F d (d.head - j) = runAt F d o
      rw [← hoj]

/-- C4, witness: at head 3 of "abcabcabc" the short-distance candidate 0
(distance 3) and the hash table offset 0 both have the run length 6. -/
theorem bestMatch_tie_short_witness :
    potentialOffsets (storeFacade 273) (abcDict 100 [2, 1, 0] 3) [97, 98, 99, 97] =
      [2, 1, 0, 0] ∧
    Store.Offsets (abcDict 100 [2, 1, 0] 3).heap [97, 98, 99, 97] = [0] ∧
    ∃ m j, bestMatch (storeFacade 273) (abcDict 100 [2, 1, 0] 3)
        (potentialOffsets (storeFacade 273) (abcDict 100 [2, 1, 0] 3) [97, 98, 99, 97]) =
          .ok m ∧
      m.n = runAt (storeFacade 273) (abcDict 100 [2, 1, 0] 3)
        ((abcDict 100 [2, 1, 0] 3).head - 3) ∧
      m.distance = j ∧ 1 ≤ j ∧ j ≤ 3 ∧
      (storeFacade 273).start (abcDict 100 [2, 1, 0] 3) ≤ (abcDict 100 [2, 1, 0] 3).head - j ∧
      runAt (storeFacade 273) (abcDict 100 [2, 1, 0] 3)
        ((abcDict 100 [2, 1, 0] 3).head - j) = m.n :=
  ⟨rfl, rfl,
    bestMatch_tie_short (storeFacade 273) (abcDict 100 [2, 1, 0] 3) [97, 98, 99, 97] 3
      (by decide) (by decide) (by decide) (by decide)⟩

/-- The window bound on the path that has the guard `start <= off`: a match of
`findOp` has a distance between 1 and `head - d.start()` as soon as every
offset the hash table returned lies in the window, below the head; the
short-distance candidates need no assumption. -/
theorem findOp_distance_in_window (F : Facade β) (d : hashDict β) (m : Match)
    (hidx : ∀ p, ∀ o ∈ F.Offsets d.heap p, F.start d ≤ o ∧ o < d.head)
    (h : findOp F d = .ok (.ofMatch m)) :
    1 ≤ m.distance ∧ m.distance ≤ d.head - F.start d := by
  obtain ⟨b, rest, _, _, hcase⟩ := findOp_eq_ok F d _ h
  rcases hcase with ⟨_, hl⟩ | ⟨m1, hb, hm1⟩
  · cases hl
  · injection hm1 with hm1
    subst hm1
    obtain ⟨l1, l2, o, hl, _, hm, _, _, _⟩ := bestMatch_eq_ok F d _ m hb
    have hmem : o ∈ potentialOffsets F d (b :: rest) := by rw [hl]; simp
    rw [potentialOffsets_split] at hmem
    rw [hm]
    show 1 ≤ d.head - o ∧ d.head - o ≤ d.head - F.start d
    rcases List.mem_append.mp hmem with hs | hi
    · obtain ⟨i, hi1, _, hoi, hsi⟩ := (mem_shortOffsets _ _ _).mp hs
      omega
    · split at hi
      · have := hidx _ o hi
        omega
      · simp at hi

/-- C5, the code at a failing input.  Data "abcdeabcde", a window of 4 bytes,
`MaxLength = 273`.  Run from head 0, `findOps` produces five literals and then,
at head 5, where `d.start()` is 1 and the candidates are 4, 3, 2, 1 and the hash
table offset 0, the match of distance 5 and length 5: its distance exceeds
`head - windowStart = 4`. -/
theorem findOp_distance_beyond_window :
    findOps (storeFacade 273) 10 (mkDict abcdeabcde 4 0) true =
      some (.ok [.ofLit ⟨97⟩, .ofLit ⟨98⟩, .ofLit ⟨99⟩, .ofLit ⟨100⟩, .ofLit ⟨101⟩,
        .ofMatch ⟨5, 5⟩]) ∧
    potentialOffsets (storeFacade 273)
        { heap := { data := abcdeabcde, size := 4, index := [4, 3, 2, 1, 0] }, head := 5 }
        [97, 98, 99, 100] = [4, 3, 2, 1, 0] ∧
    findOp (storeFacade 273)
        { heap := { data := abcdeabcde, size := 4, index := [4, 3, 2, 1, 0] }, head := 5 } =
      .ok (.ofMatch ⟨5, 5⟩) ∧
    (storeFacade 273).start
        { heap := { data := abcdeabcde, size := 4, index := [4, 3, 2, 1, 0] }, head := 5 } = 1 ∧
    ¬ ((5 : Int) ≤ 5 - (storeFacade 273).start
        { heap := { data := abcdeabcde, size := 4, index := [4, 3, 2, 1, 0] }, head := 5 }) :=
  ⟨rfl, rfl, rfl, rfl, by decide⟩

/-- What holds of every operation `findOp` can return holds of every
operation the loop adds to the collected ones. -/
theorem findOpsLoop_forall (F : Facade β) (P : operation → Prop)
    (hP : ∀ (d : hashDict β) (op : operation), findOp F d = .ok op → P op) :
    ∀ (fuel : Nat) (d : hashDict β) (acc ops : List operation) (d2 : hashDict β),
      (∀ op ∈ acc, P op) → findOpsLoop F fuel d acc = some (.ok (ops, d2)) →
      ∀ op ∈ ops, P op := by
  intro fuel
  induction fuel with
  | zero =>
    intro d acc ops d2 hacc h
    by_cases hlt : d.head < F.top d.heap
    · simp [findOpsLoop, hlt] at h
    · rw [findOpsLoop_done F 0 d acc hlt] at h
      simp only [Option.some.injEq, Except.ok.injEq, Prod.mk.injEq] at h
      rw [← h.1]; exact hacc
  | succ k ih =>
    intro d acc ops d2 hacc h
    by_cases hlt : d.head < F.top d.heap
    · obtain ⟨op, d1, hop, _, hrest⟩ := findOpsLoop_succ_ok F k d acc (ops, d2) hlt h
      refine ih d1 (acc ++ [op]) ops d2 ?_ hrest
      intro x hx
      rcases List.mem_append.mp hx with h1 | h1
      · exact hacc x h1
      · rw [List.mem_singleton.mp h1]; exact hP d op hop
    · rw [findOpsLoop_done F (k + 1) d acc hlt] at h
      simp only [Option.some.injEq, Except.ok.injEq, Prod.mk.injEq] at h
      rw [← h.1]; exact hacc

/-- The operations `findOps` returns are a leading part of those of the
loop: all of them, or all but the last. -/
theorem findOps_eq_ok (F : Facade β) (fuel : Nat) (s : hashDict β) (all : Bool)
    (ops : List operation) (h : findOps F fuel s all = some (.ok ops)) :
    ∃ ops1 d2, findOpsLoop F fuel s [] = some (.ok (ops1, d2)) ∧
      (ops = ops1 ∨ ops = ops1.take (ops1.length - 1)) := by
  unfold findOps at h
  split at h
  · cases h
  · cases h
  · rename_i ops1 d2 hl
    refine ⟨ops1, d2, hl, ?_⟩
    split at h
    · right
      simp only [Option.some.injEq, Except.ok.injEq] at h
      exact h.symm
    · left
      simp only [Option.some.injEq, Except.ok.injEq] at h
      exact h.symm

/-- C6. With the count of `equalBytes` capped at `MaxLength`, every match
returned by `bestMatch`, hence every match returned by `findOp` and every
match in a sequence returned by `findOps`, has a length `n` with
`2 <= n <= MaxLength`. -/
theorem match_length_bounds (F : Facade β) (hcap : F.RunCapped) :
    (∀ (d : hashDict β) (offsets : List Int) (m : Match),
      bestMatch F d offsets = .ok m → 2 ≤ m.n ∧ m.n ≤ F.MaxLength) ∧
    (∀ (d : hashDict β) (m : Match),
      findOp F d = .ok (.ofMatch m) → 2 ≤ m.n ∧ m.n ≤ F.MaxLength) ∧
    (∀ (fuel : Nat) (s : hashDict β) (all : Bool) (ops : List operation) (m : Match),
      findOps F fuel s all = some (.ok ops) → operation.ofMatch m ∈ ops →
      2 ≤ m.n ∧ m.n ≤ F.MaxLength) := by
  have hbest : ∀ (d : hashDict β) (offsets : List Int) (m : Match),
      bestMatch F d offsets = .ok m → 2 ≤ m.n ∧ m.n ≤ F.MaxLength := by
    intro d offsets m h
    obtain ⟨_, _, o, _, _, hm, h2, _, _⟩ := bestMatch_eq_ok F d offsets m h
    rw [hm]
    exact ⟨h2, hcap d.heap d.head o⟩
  have hop : ∀ (d : hashDict β) (op : operation), findOp F d = .ok op →
      ∀ m, op = .ofMatch m → 2 ≤ m.n ∧ m.n ≤ F.MaxLength := by
    intro d op h m hm
    obtain ⟨b, rest, _, _, hcase⟩ := findOp_eq_ok F d op h
    rcases hcase with ⟨_, hl⟩ | ⟨m1, hb, hm1⟩
    · rw [hl] at hm; cases hm
    · rw [hm1] at hm
      injection hm with hm
      rw [← hm]
      exact hbest d _ m1 hb
  refine ⟨hbest, fun d m h => hop d _ h m rfl, ?_⟩
  intro fuel s all ops m h hmem
  obtain ⟨ops1, d2, hl, hops⟩ := findOps_eq_ok F fuel s all ops h
  have hall := findOpsLoop_forall F (fun op => ∀ m, op = .ofMatch m → 2 ≤ m.n ∧ m.n ≤ F.MaxLength)
    hop fuel s [] ops1 d2 (by simp) hl
  have hmem1 : operation.ofMatch m ∈ ops1 := by
    rcases hops with h1 | h1
    · rw [← h1]; exact hmem
    · rw [h1] at hmem; exact List.mem_of_mem_take hmem
  exact hall _ hmem1 m rfl

/-- C6, witness: the match of length 6 for "abcabcabc", from `bestMatch`,
from `findOp` and in the sequence of `findOps`. -/
theorem match_length_bounds_witness :
    (storeFacade 273).RunCapped ∧
    bestMatch (storeFacade 273) (abcDict 100 [2, 1, 0] 3) [2, 1, 0, 0] = .ok ⟨3, 6⟩ ∧
    findOp (storeFacade 273) (abcDict 100 [2, 1, 0] 3) = .ok (.ofMatch ⟨3, 6⟩) ∧
    ((2 : Int) ≤ (⟨3, 6⟩ : Match).n ∧ (⟨3, 6⟩ : Match).n ≤ (storeFacade 273).MaxLength) ∧
    ((2 : Int) ≤ (⟨3, 6⟩ : Match).n ∧ (⟨3, 6⟩ : Match).n ≤ (storeFacade 273).MaxLength) ∧
    ((2 : Int) ≤ (⟨3, 6⟩ : Match).n ∧ (⟨3, 6⟩ : Match).n ≤ (storeFacade 273).MaxLength) :=
  ⟨storeFacade_runCapped 273 (by decide), rfl, rfl,
    (match_length_bounds (storeFacade 273) (storeFacade_runCapped 273 (by decide))).1
      (abcDict 100 [2, 1, 0] 3) [2, 1, 0, 0] ⟨3, 6⟩ rfl,
    (match_length_bounds (storeFacade 273) (storeFacade_runCapped 273 (by decide))).2.1
      (abcDict 100 [2, 1, 0] 3) ⟨3, 6⟩ rfl,
    (match_length_bounds (storeFacade 273) (storeFacade_runCapped 273 (by decide))).2.2
      9 (mkDict abcabcabc 100 0) true _ ⟨3, 6⟩ rfl (by decide)⟩

/-- When no candidate of the list has two matching bytes, `bestMatch` reports
no match. -/
theorem bestMatch_no_match (F : Facade β) (d : hashDict β) (l : List Int)
    (h : ∀ o ∈ l, runAt F d o < 2) : bestMatch F d l = .error Error.errNoMatch := by
  rw [bestMatch_eq_error_iff]
  rcases bestMatchScan_first F d l with ⟨h0, _⟩ | ⟨l1, l2, o, hl, hscan, h1, _, _⟩
  · right; rw [h0]
  · right
    rw [hscan]
    have : o ∈ l := by rw [hl]; simp
    have := h o this
    show runAt F d o = 1
    omega

/-- C7. When the read of 4 bytes at `head` yields the bytes `b :: rest` (at
least one byte) and no error other than `io.EOF`, and every candidate offset
generated for `head` has fewer than 2 matching bytes, `findOp` returns, without
error, the literal of `b`, the byte the read found at `head`. -/
theorem findOp_literal (F : Facade β) (d : hashDict β) (b : Byte) (rest : List Byte)
    (e : Option Error) (hr : F.ReadAt d.heap 4 d.head = (b :: rest, e))
    (he : e = none ∨ e = some Error.EOF)
    (hno : ∀ o ∈ potentialOffsets F d (b :: rest), runAt F d o < 2) :
    findOp F d = .ok (.ofLit { b := b }) := by
  rw [findOp_of_read F d b rest e hr he, bestMatch_no_match F d _ hno]

/-- C7, witness: head 2 of "abcabcabc", where the candidates 1 and 0 do not
match; the literal is the byte 99 stored at position 2. -/
theorem findOp_literal_witness :
    (storeFacade 273).ReadAt (abcDict 100 [1, 0] 2).heap 4 (abcDict 100 [1, 0] 2).head =
      ([99, 97, 98, 99], none) ∧
    Store.byteAt (abcDict 100 [1, 0] 2).heap (abcDict 100 [1, 0] 2).head = some 99 ∧
    potentialOffsets (storeFacade 273) (abcDict 100 [1, 0] 2) [99, 97, 98, 99] = [1, 0] ∧
    findOp (storeFacade 273) (abcDict 100 [1, 0] 2) = .ok (.ofLit { b := 99 }) :=
  ⟨rfl, rfl, rfl,
    findOp_literal (storeFacade 273) (abcDict 100 [1, 0] 2) 99 [97, 98, 99] none rfl
      (Or.inl rfl) (by decide)⟩

/-- The operations returned without `all` are those returned with `all`, less
the last one. -/
theorem findOps_false_eq (F : Facade β) (fuel : Nat) (s : hashDict β) :
    findOps F fuel s false =
      match findOps F fuel s true with
      | none => none
      | some (.error e) => some (.error e)
      | some (.ok ops) => some (.ok ops.dropLast) := by
  unfold findOps
  cases hl : findOpsLoop F fuel s [] with
  | none => rfl
  | some r =>
    cases r with
    | error e => rfl
    | ok r =>
      obtain ⟨ops, d2⟩ := r
      simp only [Bool.true_eq_false, false_and, if_false, true_and]
      by_cases h : ops.length > 0
      · rw [if_pos h, List.dropLast_eq_take]
      · rw [if_neg h]
        have : ops = [] := List.length_eq_zero.mp (by omega)
        rw [this]; rfl

/-- C10. Whenever `findOps` succeeds with `all = true`, it succeeds with
`all = false` on the same dictionary, and the sequence it then returns is the
`all = true` sequence without its last operation; it is empty when the
`all = true` sequence is empty. -/
theorem findOps_false_dropLast (F : Facade β) (fuel : Nat) (s : hashDict β)
    (ops : List operation) (h : findOps F fuel s true = some (.ok ops)) :
    findOps F fuel s false = some (.ok ops.dropLast) ∧
      (ops = [] → findOps F fuel s false = some (.ok [])) := by
  have h1 : findOps F fuel s false = some (.ok ops.dropLast) := by
    rw [findOps_false_eq, h]
  refine ⟨h1, ?_⟩
  intro he
  rw [h1, he]
  rfl

/-- C10, witness: "abcabcabc" from head 0. -/
theorem findOps_false_dropLast_witness :
    findOps (storeFacade 273) 9 (mkDict abcabcabc 100 0) true =
      some (.ok [.ofLit ⟨97⟩, .ofLit ⟨98⟩, .ofLit ⟨99⟩, .ofMatch ⟨3, 6⟩]) ∧
    findOps (storeFacade 273) 9 (mkDict abcabcabc 100 0) false =
      some (.ok [.ofLit ⟨97⟩, .ofLit ⟨98⟩, .ofLit ⟨99⟩]) :=
  ⟨rfl, (findOps_false_dropLast (storeFacade 273) 9 (mkDict abcabcabc 100 0)
    [.ofLit ⟨97⟩, .ofLit ⟨98⟩, .ofLit ⟨99⟩, .ofMatch ⟨3, 6⟩] rfl).1⟩

theorem storeFacade_readWithinData (maxLength : Int) :
    (storeFacade maxLength).ReadWithinData := by
  intro h len off hle
  show (((Store.ReadAt h len off).1.length : Nat) : Int) ≤ Store.top h - off
  unfold Store.ReadAt
  split
  · simp only [List.length_nil, Nat.cast_zero]
    have : off ≤ Store.top h := hle
    omega
  · rename_i hc
    simp only [List.length_take, List.length_drop]
    unfold Store.top at *
    omega

/-- Without 4 bytes in `p`, `potentialOffsets` does not look at the hash
table. -/
theorem potentialOffsets_short (F : Facade β) (d : hashDict β) (p : List Byte)
    (hp : p.length ≠ 4) : potentialOffsets F d p = shortOffsets (F.start d) d.head := by
  rw [potentialOffsets_split, if_neg hp, List.append_nil]

/-- C9. When between 1 and 3 bytes remain before `bufferTop` (and a read
returns no more bytes than remain), the result of `findOp` is the same
whatever the hash table returns, and if the read at `head` succeeds and no
short-distance candidate inside the window has 2 matching bytes, `findOp`
returns a literal. -/
theorem findOp_near_end (F : Facade β) (d : hashDict β) (hread : F.ReadWithinData)
    (hrem : 1 ≤ F.top d.heap - d.head ∧ F.top d.heap - d.head < 4) :
    (∀ g : β → List Byte → List Int, findOp { F with Offsets := g } d = findOp F d) ∧
    (∀ (b : Byte) (rest : List Byte) (e : Option Error),
      F.ReadAt d.heap 4 d.head = (b :: rest, e) → (e = none ∨ e = some Error.EOF) →
      (∀ o ∈ shortOffsets (F.start d) d.head, runAt F d o < 2) →
      findOp F d = .ok (.ofLit { b := b })) := by
  have hlen : (F.ReadAt d.heap 4 d.head).1.length ≠ 4 := by
    have := hread d.heap 4 d.head (by omega)
    omega
  constructor
  · intro g
    have hpo : potentialOffsets { F with Offsets := g } d (F.ReadAt d.heap 4 d.head).1 =
        potentialOffsets F d (F.ReadAt d.heap 4 d.head).1 := by
      rw [potentialOffsets_short _ d _ hlen, potentialOffsets_short F d _ hlen]
    unfold findOp
    simp only
    split
    · rfl
    · split
      · rfl
      · rw [hpo]
        rfl
  · intro b rest e hr he hno
    rw [hr] at hlen
    rw [findOp_of_read F d b rest e hr he, bestMatch_no_match F d _ (by
      rw [potentialOffsets_short F d _ hlen]
      exact hno)]

/-- C9, witness: head 8 of "abcdeabcde" with a window of 4 bytes; two bytes
remain, the candidates 7, 6, 5, 4 do not match, and the hash table, which
holds the matching position 3, is not asked. -/
theorem findOp_near_end_witness :
    (1 ≤ (storeFacade 273).top
          (⟨⟨abcdeabcde, 4, [7, 6, 5, 4, 3, 2, 1, 0]⟩, 8⟩ : hashDict Store).heap -
        (⟨⟨abcdeabcde, 4, [7, 6, 5, 4, 3, 2, 1, 0]⟩, 8⟩ : hashDict Store).head ∧
      (storeFacade 273).top
          (⟨⟨abcdeabcde, 4, [7, 6, 5, 4, 3, 2, 1, 0]⟩, 8⟩ : hashDict Store).heap -
        (⟨⟨abcdeabcde, 4, [7, 6, 5, 4, 3, 2, 1, 0]⟩, 8⟩ : hashDict Store).head < 4) ∧
    findOp { storeFacade 273 with Offsets := fun _ _ => [3] }
        (⟨⟨abcdeabcde, 4, [7, 6, 5, 4, 3, 2, 1, 0]⟩, 8⟩ : hashDict Store) =
      findOp (storeFacade 273) ⟨⟨abcdeabcde, 4, [7, 6, 5, 4, 3, 2, 1, 0]⟩, 8⟩ ∧
    findOp (storeFacade 273) ⟨⟨abcdeabcde, 4, [7, 6, 5, 4, 3, 2, 1, 0]⟩, 8⟩ =
      .ok (.ofLit { b := 100 }) :=
  ⟨by decide,
    (findOp_near_end (storeFacade 273) ⟨⟨abcdeabcde, 4, [7, 6, 5, 4, 3, 2, 1, 0]⟩, 8⟩
      (storeFacade_readWithinData 273) (by decide)).1 (fun _ _ => [3]),
    (findOp_near_end (storeFacade 273) ⟨⟨abcdeabcde, 4, [7, 6, 5, 4, 3, 2, 1, 0]⟩, 8⟩
      (storeFacade_readWithinData 273) (by decide)).2 100 [101] (some Error.EOF) rfl
      (Or.inr rfl) (by decide)⟩

/-- The result of `findOp` after a read that returned an error other than
`io.EOF`: that error. -/
theorem findOp_of_read_error (F : Facade β) (d : hashDict β) (e : Error)
    (he : (F.ReadAt d.heap 4 d.head).2 = some e) (hne : e ≠ Error.EOF) :
    findOp F d = .error e := by
  unfold findOp
  simp only
  rw [if_pos]
  · rw [he]; rfl
  · rw [he]
    exact ⟨by simp, by simpa using hne⟩

/-- The result of `findOp` after a read that returned no byte and no error
other than `io.EOF`: `errEmptyBuf`. -/
theorem findOp_of_read_empty (F : Facade β) (d : hashDict β)
    (hn : (F.ReadAt d.heap 4 d.head).1 = [])
    (he : (F.ReadAt d.heap 4 d.head).2 = none ∨
      (F.ReadAt d.heap 4 d.head).2 = some Error.EOF) :
    findOp F d = .error Error.errEmptyBuf := by
  unfold findOp
  simp only
  rw [if_neg]
  · rw [hn]
  · rintro ⟨h1, h2⟩
    rcases he with h | h
    · exact h1 h
    · exact h2 h

/-- After a read of at least one byte with no error other than `io.EOF`,
`findOp` returns an operation. -/
theorem findOp_of_read_ok (F : Facade β) (d : hashDict β)
    (hn : (F.ReadAt d.heap 4 d.head).1 ≠ [])
    (he : (F.ReadAt d.heap 4 d.head).2 = none ∨
      (F.ReadAt d.heap 4 d.head).2 = some Error.EOF) :
    ∃ op, findOp F d = .ok op := by
  cases hr : (F.ReadAt d.heap 4 d.head).1 with
  | nil => exact absurd hr hn
  | cons b rest =>
    have hpair : F.ReadAt d.heap 4 d.head = (b :: rest, (F.ReadAt d.heap 4 d.head).2) := by
      rw [← hr]
    rw [findOp_of_read F d b rest _ hpair he]
    cases hb : bestMatch F d (potentialOffsets F d (b :: rest)) with
    | error e =>
      have := bestMatch_eq_error F d _ e hb
      subst this
      exact ⟨_, rfl⟩
    | ok m => exact ⟨_, rfl⟩

/-- C14. Provided the read does not itself return the value `errEmptyBuf` as
its error: `findOp` fails with `errEmptyBuf` exactly when the read of 4 bytes
at `head` returns no byte together with no error or `io.EOF`; when the read
returns any other error, `findOp` returns that error; when the read returns
at least one byte with no error or `io.EOF`, `findOp` returns an operation. -/
theorem findOp_read_cases (F : Facade β) (d : hashDict β)
    (hsent : (F.ReadAt d.heap 4 d.head).2 ≠ some Error.errEmptyBuf) :
    (findOp F d = .error Error.errEmptyBuf ↔
      ((F.ReadAt d.heap 4 d.head).1 = [] ∧
        ((F.ReadAt d.heap 4 d.head).2 = none ∨
          (F.ReadAt d.heap 4 d.head).2 = some Error.EOF))) ∧
    (∀ e, (F.ReadAt d.heap 4 d.head).2 = some e → e ≠ Error.EOF →
      findOp F d = .error e) ∧
    ((F.ReadAt d.heap 4 d.head).1 ≠ [] →
      ((F.ReadAt d.heap 4 d.head).2 = none ∨
        (F.ReadAt d.heap 4 d.head).2 = some Error.EOF) →
      ∃ op, findOp F d = .ok op) := by
  refine ⟨⟨?_, fun h => findOp_of_read_empty F d h.1 h.2⟩,
    fun e he hne => findOp_of_read_error F d e he hne,
    fun hn he => findOp_of_read_ok F d hn he⟩
  intro hf
  have herr : (F.ReadAt d.heap 4 d.head).2 = none ∨
      (F.ReadAt d.heap 4 d.head).2 = some Error.EOF := by
    cases h2 : (F.ReadAt d.heap 4 d.head).2 with
    | none => exact Or.inl rfl
    | some e =>
      by_cases hne : e = Error.EOF
      · right; rw [hne]
      · exfalso
        rw [findOp_of_read_error F d e h2 hne] at hf
        injection hf with hf
        apply hsent
        rw [h2, hf]
  refine ⟨?_, herr⟩
  by_contra hn
  obtain ⟨op, hop⟩ := findOp_of_read_ok F d hn herr
  rw [hop] at hf
  cases hf

/-- C14, witness: on "abcabcabc", the read at head 9 (the end of the data)
returns no byte and `io.EOF`; the read at head -1 returns another error; the
read at head 2 returns 4 bytes. -/
theorem findOp_read_cases_witness :
    findOp (storeFacade 273) (abcDict 100 [] 9) = .error Error.errEmptyBuf ∧
    findOp (storeFacade 273) (abcDict 100 [] (-1)) = .error (Error.other 1) ∧
    ∃ op, findOp (storeFacade 273) (abcDict 100 [1, 0] 2) = .ok op :=
  ⟨(findOp_read_cases (storeFacade 273) (abcDict 100 [] 9) (by decide)).1.mpr
      ⟨rfl, Or.inr rfl⟩,
    (findOp_read_cases (storeFacade 273) (abcDict 100 [] (-1)) (by decide)).2.1
      (Error.other 1) rfl (by decide),
    (findOp_read_cases (storeFacade 273) (abcDict 100 [1, 0] 2) (by decide)).2.2
      (by decide) (Or.inl rfl)⟩

/-- A result of the loop does not depend on the iteration bound, once the
bound is large enough to reach it. -/
theorem findOpsLoop_mono (F : Facade β) :
    ∀ (fuel k : Nat) (d : hashDict β) (acc : List operation)
      (r : Except Error (List operation × hashDict β)),
      findOpsLoop F fuel d acc = some r → findOpsLoop F (fuel + k) d acc = some r := by
  intro fuel
  induction fuel with
  | zero =>
    intro k d acc r h
    by_cases hlt : d.head < F.top d.heap
    · simp [findOpsLoop, hlt] at h
    · rw [findOpsLoop_done F 0 d acc hlt] at h
      rw [findOpsLoop_done F (0 + k) d acc hlt]
      exact h
  | succ n ih =>
    intro k d acc r h
    have hk : n + 1 + k = (n + k) + 1 := by omega
    rw [hk]
    by_cases hlt : d.head < F.top d.heap
    · simp only [findOpsLoop, hlt, if_true] at h ⊢
      cases hop : findOp F d with
      | error e => rw [hop] at h; exact h
      | ok op =>
        rw [hop] at h
        simp only at h ⊢
        cases hmv : F.move d op.Len with
        | error e => rw [hmv] at h; exact h
        | ok d1 =>
          rw [hmv] at h
          exact ih k d1 _ r h
    · rw [findOpsLoop_done F (n + 1) d acc hlt] at h
      rw [findOpsLoop_done F (n + k + 1) d acc hlt]
      exact h

/-- With `move` advancing the head by the length it is given, the loop ends
within `bufferTop - head` turns. -/
theorem findOpsLoop_terminates (F : Facade β) (hmove : F.MoveAdvances) :
    ∀ (fuel : Nat) (d : hashDict β) (acc : List operation),
      F.top d.heap - d.head ≤ fuel → findOpsLoop F fuel d acc ≠ none := by
  intro fuel
  induction fuel with
  | zero =>
    intro d acc h
    have hlt : ¬ d.head < F.top d.heap := by
      simp only [Nat.cast_zero] at h
      omega
    rw [findOpsLoop_done F 0 d acc hlt]
    simp
  | succ n ih =>
    intro d acc h
    by_cases hlt : d.head < F.top d.heap
    · simp only [findOpsLoop, hlt, if_true]
      cases hop : findOp F d with
      | error e => simp
      | ok op =>
        simp only
        cases hmv : F.move d op.Len with
        | error e => simp
        | ok d1 =>
          simp only
          obtain ⟨hhead, htop⟩ := hmove d op.Len d1 hmv
          have hpos := findOp_len_pos F d op hop
          apply ih
          rw [hhead, htop]
          push_cast at h
          omega
    · rw [findOpsLoop_done F (n + 1) d acc hlt]
      simp

/-- The number of operations the loop adds is at most `bufferTop - head`. -/
theorem findOpsLoop_length (F : Facade β) (hmove : F.MoveAdvances) :
    ∀ (fuel : Nat) (d : hashDict β) (acc ops : List operation) (d2 : hashDict β),
      findOpsLoop F fuel d acc = some (.ok (ops, d2)) →
      (ops.length : Int) ≤ acc.length + max 0 (F.top d.heap - d.head) := by
  intro fuel
  induction fuel with
  | zero =>
    intro d acc ops d2 h
    by_cases hlt : d.head < F.top d.heap
    · simp [findOpsLoop, hlt] at h
    · rw [findOpsLoop_done F 0 d acc hlt] at h
      simp only [Option.some.injEq, Except.ok.injEq, Prod.mk.injEq] at h
      rw [← h.1]
      omega
  | succ n ih =>
    intro d acc ops d2 h
    by_cases hlt : d.head < F.top d.heap
    · obtain ⟨op, d1, hop, hmv, hrest⟩ := findOpsLoop_succ_ok F n d acc (ops, d2) hlt h
      obtain ⟨hhead, htop⟩ := hmove d op.Len d1 hmv
      have hpos := findOp_len_pos F d op hop
      have := ih d1 (acc ++ [op]) ops d2 hrest
      rw [hhead, htop] at this
      simp only [List.length_append, List.length_singleton, Nat.cast_add, Nat.cast_one] at this
      omega
    · rw [findOpsLoop_done F (n + 1) d acc hlt] at h
      simp only [Option.some.injEq, Except.ok.injEq, Prod.mk.injEq] at h
      rw [← h.1]
      omega

/-- C19. With `move` advancing the head by the length it is given: every
operation of `findOp` has a length of at least 1 (1 for a literal, at least 2
for a match); a turn of the loop strictly increases the working head and
strictly decreases `bufferTop - head`; `findOps` returns within
`bufferTop - head` turns; and a sequence it returns has at most
`bufferTop - head` operations. -/
theorem findOps_terminates (F : Facade β) (hmove : F.MoveAdvances) :
    (∀ (d : hashDict β) (op : operation), findOp F d = .ok op →
      1 ≤ op.Len ∧ (∀ l, op = .ofLit l → op.Len = 1) ∧ (∀ m, op = .ofMatch m → 2 ≤ op.Len)) ∧
    (∀ (d d1 : hashDict β) (op : operation), findOp F d = .ok op →
      F.move d op.Len = .ok d1 →
      d.head < d1.head ∧ F.top d1.heap - d1.head < F.top d.heap - d.head) ∧
    (∀ (fuel : Nat) (s : hashDict β) (all : Bool),
      F.top s.heap - s.head ≤ fuel → ∃ r, findOps F fuel s all = some r) ∧
    (∀ (fuel : Nat) (s : hashDict β) (all : Bool) (ops : List operation),
      s.head ≤ F.top s.heap → findOps F fuel s all = some (.ok ops) →
      (ops.length : Int) ≤ F.top s.heap - s.head) := by
  refine ⟨?_, ?_, ?_, ?_⟩
  · intro d op h
    refine ⟨findOp_len_pos F d op h, fun l hl => by rw [hl]; rfl, ?_⟩
    intro m hm
    obtain ⟨b, rest, _, _, hcase⟩ := findOp_eq_ok F d op h
    rcases hcase with ⟨_, hop⟩ | ⟨m1, hb, hop⟩
    · rw [hop] at hm; cases hm
    · obtain ⟨_, _, o, _, _, hm1, h2, _, _⟩ := bestMatch_eq_ok F d _ m1 hb
      rw [hop, hm1]
      exact h2
  · intro d d1 op hop hmv
    obtain ⟨hhead, htop⟩ := hmove d op.Len d1 hmv
    have hpos := findOp_len_pos F d op hop
    rw [hhead, htop]
    constructor <;> omega
  · intro fuel s all hfuel
    have hne := findOpsLoop_terminates F hmove fuel s [] hfuel
    unfold findOps
    cases hl : findOpsLoop F fuel s [] with
    | none => exact absurd hl hne
    | some r =>
      cases r with
      | error e => exact ⟨_, rfl⟩
      | ok r =>
        obtain ⟨ops, d2⟩ := r
        simp only
        split
        · exact ⟨_, rfl⟩
        · exact ⟨_, rfl⟩
  · intro fuel s all ops hle h
    obtain ⟨ops1, d2, hl, hops⟩ := findOps_eq_ok F fuel s all ops h
    have hlen := findOpsLoop_length F hmove fuel s [] ops1 d2 hl
    simp only [List.length_nil, Nat.cast_zero, zero_add] at hlen
    have hle2 : (ops.length : Int) ≤ ops1.length := by
      rcases hops with h1 | h1
      · rw [h1]
      · rw [h1, List.length_take]
        omega
    omega

/-- C19, witness: on "abcabcabc" from head 0, with `bufferTop - head = 9`
turns allowed, `findOps` returns, and it returns 4 operations. -/
theorem findOps_terminates_witness :
    (storeFacade 273).MoveAdvances ∧
    (∃ r, findOps (storeFacade 273) 9 (mkDict abcabcabc 100 0) true = some r) ∧
    ((4 : Nat) : Int) ≤ (storeFacade 273).top (mkDict abcabcabc 100 0).heap -
      (mkDict abcabcabc 100 0).head :=
  ⟨storeFacade_moveAdvances 273,
    (findOps_terminates (storeFacade 273) (storeFacade_moveAdvances 273)).2.2.1 9
      (mkDict abcabcabc 100 0) true (by decide),
    (findOps_terminates (storeFacade 273) (storeFacade_moveAdvances 273)).2.2.2 9
      (mkDict abcabcabc 100 0) true
      [.ofLit ⟨97⟩, .ofLit ⟨98⟩, .ofLit ⟨99⟩, .ofMatch ⟨3, 6⟩] (by decide) rfl⟩

/-- In the list of `potentialOffsets`, a selected offset that is preceded by
no occurrence of the short-distance candidate `c` is itself a short-distance
candidate, and `c` does not come before it. -/
theorem selected_short (F : Facade β) (d : hashDict β) (p : List Byte)
    (l1 l2 : List Int) (o c : Int)
    (hl : potentialOffsets F d p = l1 ++ o :: l2)
    (hc : c ∈ shortOffsets (F.start d) d.head) (hnot : c ∉ l1) :
    o ∈ shortOffsets (F.start d) d.head ∧ c ≤ o := by
  rw [potentialOffsets_split] at hl
  rcases List.append_eq_append_iff.mp hl with ⟨a, ha, _⟩ | ⟨t, ht, ht2⟩
  · exfalso
    apply hnot
    rw [ha]
    exact List.mem_append_left _ hc
  · cases t with
    | nil =>
      exfalso
      apply hnot
      rw [List.append_nil] at ht
      rw [← ht]
      exact hc
    | cons x t =>
      rw [List.cons_append] at ht2
      injection ht2 with hx _
      subst hx
      refine ⟨by rw [ht]; simp, ?_⟩
      have hpw := shortOffsets_pairwise (F.start d) d.head
      rw [ht] at hpw hc
      rcases List.mem_append.mp hc with h | h
      · exact absurd h hnot
      · rcases List.mem_cons.mp h with h | h
        · rw [h]
        · have := (List.pairwise_cons.mp (List.pairwise_append.mp hpw).2.1).1 _ h
          omega

/-- C16. When `bestMatch` returns a match, the offset it selected is the
candidate with the smallest list index among the candidates whose capped run
length is the largest of the list; so, on the list of `potentialOffsets`, when
a short-distance candidate of distance `c` has that largest run length, the
distance returned is at least 1 and at most `c`. -/
theorem bestMatch_first_longest (F : Facade β) (d : hashDict β) :
    (∀ (offsets : List Int) (m : Match), bestMatch F d offsets = .ok m →
      ∃ (i : Nat) (o : Int), offsets.get? i = some o ∧
        m = { distance := d.head - o, n := runAt F d o } ∧
        (∀ (j : Nat) (x : Int), offsets.get? j = some x → runAt F d x ≤ runAt F d o) ∧
        (∀ (j : Nat) (x : Int), j < i → offsets.get? j = some x →
          runAt F d x < runAt F d o)) ∧
    (∀ (p : List Byte) (m : Match) (c : Int),
      bestMatch F d (potentialOffsets F d p) = .ok m →
      1 ≤ c → c ≤ 10 → F.start d ≤ d.head - c → runAt F d (d.head - c) = m.n →
      1 ≤ m.distance ∧ m.distance ≤ c) := by
  constructor
  · intro offsets m h
    obtain ⟨l1, l2, o, hl, _, hm, _, hl1, hl2⟩ := bestMatch_eq_ok F d offsets m h
    refine ⟨l1.length, o, ?_, hm, ?_, ?_⟩
    · rw [hl, List.get?_eq_getElem?, List.getElem?_append_right (le_refl _)]
      simp
    · intro j x hj
      have hx := List.get?_mem hj
      rw [hl] at hx
      rcases List.mem_append.mp hx with h1 | h1
      · exact le_of_lt (hl1 x h1)
      · rcases List.mem_cons.mp h1 with h2 | h2
        · rw [h2]
        · exact hl2 x h2
    · intro j x hji hj
      rw [hl, List.get?_eq_getElem?, List.getElem?_append_left hji,
        ← List.get?_eq_getElem?] at hj
      exact hl1 x (List.get?_mem hj)
  · intro p m c h hc1 hc10 hcs hrun
    obtain ⟨l1, l2, o, hl, _, hm, _, hl1, _⟩ := bestMatch_eq_ok F d _ m h
    have hcmem : d.head - c ∈ shortOffsets (F.start d) d.head :=
      (mem_shortOffsets _ _ _).mpr ⟨c, hc1, hc10, rfl, hcs⟩
    have hn : m.n = runAt F d o := by rw [hm]
    have hnot : d.head - c ∉ l1 := by
      intro hin
      have := hl1 _ hin
      omega
    obtain ⟨hoS, hle⟩ := selected_short F d p l1 l2 o (d.head - c) hl hcmem hnot
    obtain ⟨j, hj1, _, hoj, _⟩ := (mem_shortOffsets _ _ _).mp hoS
    rw [hm]
    show 1 ≤ d.head - o ∧ d.head - o ≤ c
    constructor <;> omega

/-- C16, witness: at head 6 of "abcabcabc" the candidates are 5, 4, 3, 2, 1, 0;
the candidates 3 (distance 3) and 0 (distance 6) both have the largest run
length 3, and the match returned has the distance 3. -/
theorem bestMatch_first_longest_witness :
    potentialOffsets (storeFacade 273) (abcDict 100 [5, 4, 3, 2, 1, 0] 6) [97, 98, 99] =
      [5, 4, 3, 2, 1, 0] ∧
    runAt (storeFacade 273) (abcDict 100 [5, 4, 3, 2, 1, 0] 6) 3 = 3 ∧
    runAt (storeFacade 273) (abcDict 100 [5, 4, 3, 2, 1, 0] 6) 0 = 3 ∧
    bestMatch (storeFacade 273) (abcDict 100 [5, 4, 3, 2, 1, 0] 6)
      (potentialOffsets (storeFacade 273) (abcDict 100 [5, 4, 3, 2, 1, 0] 6) [97, 98, 99]) =
      .ok ⟨3, 3⟩ ∧
    (1 ≤ (⟨3, 3⟩ : Match).distance ∧ (⟨3, 3⟩ : Match).distance ≤ 6) :=
  ⟨rfl, rfl, rfl, rfl,
    (bestMatch_first_longest (storeFacade 273) (abcDict 100 [5, 4, 3, 2, 1, 0] 6)).2
      [97, 98, 99] ⟨3, 3⟩ 6 rfl (by decide) (by decide) (by decide) rfl⟩

/-- After `k` successful turns the loop goes on from the state they reached. -/
theorem findOpsLoop_after_steps (F : Facade β) :
    ∀ (k fuel : Nat) (s d : hashDict β) (acc ops : List operation),
      loopSteps F k s acc = some (d, ops) →
      findOpsLoop F (k + fuel) s acc = findOpsLoop F fuel d ops := by
  intro k
  induction k with
  | zero =>
    intro fuel s d acc ops h
    simp only [loopSteps, Option.some.injEq, Prod.mk.injEq] at h
    rw [h.1, h.2, Nat.zero_add]
  | succ n ih =>
    intro fuel s d acc ops h
    have hk : n + 1 + fuel = (n + fuel) + 1 := by omega
    rw [hk]
    by_cases hlt : s.head < F.top s.heap
    · simp only [loopSteps, hlt, if_true] at h
      simp only [findOpsLoop, hlt, if_true]
      cases hop : findOp F s with
      | error e => rw [hop] at h; cases h
      | ok op =>
        rw [hop] at h
        simp only at h ⊢
        cases hmv : F.move s op.Len with
        | error e => rw [hmv] at h; cases h
        | ok d1 =>
          rw [hmv] at h
          exact ih fuel d1 d _ ops h
    · simp [loopSteps, hlt] at h

/-- A turn of the loop in which `findOp` or `move` fails ends the loop with
that error, whatever was collected. -/
theorem findOpsLoop_fail (F : Facade β) (fuel : Nat) (d : hashDict β)
    (acc : List operation) (e : Error) (hlt : d.head < F.top d.heap)
    (hfail : findOp F d = .error e ∨
      ∃ op, findOp F d = .ok op ∧ F.move d op.Len = .error e) :
    findOpsLoop F (fuel + 1) d acc = some (.error e) := by
  simp only [findOpsLoop, hlt, if_true]
  rcases hfail with h | ⟨op, hop, hmv⟩
  · rw [h]
  · rw [hop]
    simp only
    rw [hmv]

/-- C15. When, after `k` successful turns of the loop that collected the
operations `acc`, the decision step `findOp` fails with `e`, or it succeeds
and the head advance `move` fails with `e`, then `findOps` returns the error
`e` and no operation sequence, for either value of `all` and whatever `acc`
is. -/
theorem findOps_first_error (F : Facade β) (k fuel : Nat) (s d : hashDict β)
    (acc : List operation) (e : Error) (all : Bool)
    (hrun : loopSteps F k s [] = some (d, acc))
    (hlt : d.head < F.top d.heap)
    (hfail : findOp F d = .error e ∨
      ∃ op, findOp F d = .ok op ∧ F.move d op.Len = .error e)
    (hfuel : k < fuel) :
    findOps F fuel s all = some (.error e) := by
  obtain ⟨j, hj⟩ := Nat.exists_eq_add_of_lt hfuel
  have hf : fuel = k + (j + 1) := by omega
  unfold findOps
  rw [hf, findOpsLoop_after_steps F k (j + 1) s d [] acc hrun,
    findOpsLoop_fail F j d acc e hlt hfail]

/-- C15, witness: a dictionary over "abcabcabc" whose advance fails at head 2;
two literals are collected, then the advance fails, and `findOps` returns
the error of the advance. -/
theorem findOps_first_error_witness :
    loopSteps { storeFacade 273 with
        move := fun d n => if d.head = 2 then .error (Error.other 7) else Store.move d n }
      2 (mkDict abcabcabc 100 0) [] =
      some (abcDict 100 [1, 0] 2, [.ofLit ⟨97⟩, .ofLit ⟨98⟩]) ∧
    findOps { storeFacade 273 with
        move := fun d n => if d.head = 2 then .error (Error.other 7) else Store.move d n }
      9 (mkDict abcabcabc 100 0) false = some (.error (Error.other 7)) :=
  ⟨rfl,
    findOps_first_error { storeFacade 273 with
        move := fun d n => if d.head = 2 then .error (Error.other 7) else Store.move d n }
      2 9 (mkDict abcabcabc 100 0) (abcDict 100 [1, 0] 2) [.ofLit ⟨97⟩, .ofLit ⟨98⟩]
      (Error.other 7) false rfl (by decide) (Or.inr ⟨.ofLit ⟨99⟩, rfl, rfl⟩) (by decide)⟩

/-- The two ways `findOp` fails: the read returned an error other than
`io.EOF`, which is passed on, or it returned no byte, which gives
`errEmptyBuf`. -/
theorem findOp_eq_error (F : Facade β) (d : hashDict β) (e : Error)
    (h : findOp F d = .error e) :
    ((F.ReadAt d.heap 4 d.head).2 = some e ∧ e ≠ Error.EOF) ∨
    (e = Error.errEmptyBuf ∧ (F.ReadAt d.heap 4 d.head).1 = [] ∧
      ((F.ReadAt d.heap 4 d.head).2 = none ∨
        (F.ReadAt d.heap 4 d.head).2 = some Error.EOF)) := by
  cases h2 : (F.ReadAt d.heap 4 d.head).2 with
  | some e1 =>
    by_cases hne : e1 = Error.EOF
    · right
      have herr : (F.ReadAt d.heap 4 d.head).2 = none ∨
          (F.ReadAt d.heap 4 d.head).2 = some Error.EOF := Or.inr (by rw [h2, hne])
      by_cases hn : (F.ReadAt d.heap 4 d.head).1 = []
      · rw [findOp_of_read_empty F d hn herr] at h
        injection h with h
        exact ⟨h.symm, hn, Or.inr (by rw [hne])⟩
      · obtain ⟨op, hop⟩ := findOp_of_read_ok F d hn herr
        rw [hop] at h
        cases h
    · left
      rw [findOp_of_read_error F d e1 h2 hne] at h
      injection h with h
      rw [← h]
      exact ⟨rfl, hne⟩
  | none =>
    right
    have herr : (F.ReadAt d.heap 4 d.head).2 = none ∨
        (F.ReadAt d.heap 4 d.head).2 = some Error.EOF := Or.inl h2
    by_cases hn : (F.ReadAt d.heap 4 d.head).1 = []
    · rw [findOp_of_read_empty F d hn herr] at h
      injection h with h
      exact ⟨h.symm, hn, Or.inl rfl⟩
    · obtain ⟨op, hop⟩ := findOp_of_read_ok F d hn herr
      rw [hop] at h
      cases h

/-- An error of the loop is the error of `findOp` or of `move` in a turn of
the loop, that is at a working copy whose head is below `bufferTop`. -/
theorem findOpsLoop_error (F : Facade β) :
    ∀ (fuel : Nat) (d : hashDict β) (acc : List operation) (e : Error),
      findOpsLoop F fuel d acc = some (.error e) →
      ∃ d1 : hashDict β, d1.head < F.top d1.heap ∧
        (findOp F d1 = .error e ∨
          ∃ op, findOp F d1 = .ok op ∧ F.move d1 op.Len = .error e) := by
  intro fuel
  induction fuel with
  | zero =>
    intro d acc e h
    by_cases hlt : d.head < F.top d.heap
    · simp [findOpsLoop, hlt] at h
    · rw [findOpsLoop_done F 0 d acc hlt] at h
      cases h
  | succ n ih =>
    intro d acc e h
    by_cases hlt : d.head < F.top d.heap
    · simp only [findOpsLoop, hlt, if_true] at h
      cases hop : findOp F d with
      | error e1 =>
        rw [hop] at h
        simp only [Option.some.injEq, Except.error.injEq] at h
        exact ⟨d, hlt, Or.inl (by rw [← h]; exact hop)⟩
      | ok op =>
        rw [hop] at h
        simp only at h
        cases hmv : F.move d op.Len with
        | error e1 =>
          rw [hmv] at h
          simp only [Option.some.injEq, Except.error.injEq] at h
          exact ⟨d, hlt, Or.inr ⟨op, hop, by rw [hmv, h]⟩⟩
        | ok d1 =>
          rw [hmv] at h
          exact ih d1 _ e h
    · rw [findOpsLoop_done F (n + 1) d acc hlt] at h
      cases h

/-- An error of `findOps` is an error of its loop. -/
theorem findOps_eq_error (F : Facade β) (fuel : Nat) (s : hashDict β) (all : Bool)
    (e : Error) (h : findOps F fuel s all = some (.error e)) :
    findOpsLoop F fuel s [] = some (.error e) := by
  unfold findOps at h
  split at h
  · cases h
  · rename_i e1 hl
    simp only [Option.some.injEq, Except.error.injEq] at h
    rw [hl, h]
  · split at h <;> cases h

/-- C17. When a read at a position below `bufferTop` never comes back with no
byte and no error other than `io.EOF` (it returns at least one byte there, or
fails), the empty-buffer branch of `findOp` is not reached at any working copy
with `head < bufferTop`, the only ones the loop of `findOps` passes to
`findOp`; so `findOps` fails with `errEmptyBuf` only if the read or the
advance itself returned that value, and never when they do not. -/
theorem findOps_no_empty_buffer (F : Facade β)
    (hread : ∀ (h : β) (off : Int), off < F.top h → (F.ReadAt h 4 off).1 = [] →
      ((F.ReadAt h 4 off).2 ≠ none ∧ (F.ReadAt h 4 off).2 ≠ some Error.EOF)) :
    (∀ d : hashDict β, d.head < F.top d.heap →
      ¬ ((F.ReadAt d.heap 4 d.head).1 = [] ∧
        ((F.ReadAt d.heap 4 d.head).2 = none ∨
          (F.ReadAt d.heap 4 d.head).2 = some Error.EOF))) ∧
    (∀ (fuel : Nat) (s : hashDict β) (all : Bool),
      F.start s ≤ s.head ∧ s.head ≤ F.top s.heap →
      findOps F fuel s all = some (.error Error.errEmptyBuf) →
      ∃ d1 : hashDict β, d1.head < F.top d1.heap ∧
        ((F.ReadAt d1.heap 4 d1.head).2 = some Error.errEmptyBuf ∨
          ∃ n, F.move d1 n = .error Error.errEmptyBuf)) ∧
    ((∀ (h : β) (off : Int), (F.ReadAt h 4 off).2 ≠ some Error.errEmptyBuf) →
      (∀ (d : hashDict β) (n : Int), F.move d n ≠ .error Error.errEmptyBuf) →
      ∀ (fuel : Nat) (s : hashDict β) (all : Bool),
        F.start s ≤ s.head ∧ s.head ≤ F.top s.heap →
        findOps F fuel s all ≠ some (.error Error.errEmptyBuf)) := by
  have h1 : ∀ d : hashDict β, d.head < F.top d.heap →
      ¬ ((F.ReadAt d.heap 4 d.head).1 = [] ∧
        ((F.ReadAt d.heap 4 d.head).2 = none ∨
          (F.ReadAt d.heap 4 d.head).2 = some Error.EOF)) := by
    intro d hlt hc
    obtain ⟨hnone, heof⟩ := hread d.heap d.head hlt hc.1
    rcases hc.2 with h | h
    · exact hnone h
    · exact heof h
  have h2 : ∀ (fuel : Nat) (s : hashDict β) (all : Bool),
      findOps F fuel s all = some (.error Error.errEmptyBuf) →
      ∃ d1 : hashDict β, d1.head < F.top d1.heap ∧
        ((F.ReadAt d1.heap 4 d1.head).2 = some Error.errEmptyBuf ∨
          ∃ n, F.move d1 n = .error Error.errEmptyBuf) := by
    intro fuel s all h
    obtain ⟨d1, hlt, hfail⟩ := findOpsLoop_error F fuel s [] _ (findOps_eq_error F fuel s all _ h)
    refine ⟨d1, hlt, ?_⟩
    rcases hfail with hf | ⟨op, _, hmv⟩
    · rcases findOp_eq_error F d1 _ hf with ⟨hr, _⟩ | ⟨_, hn, he⟩
      · exact Or.inl hr
      · exact absurd ⟨hn, he⟩ (h1 d1 hlt)
    · exact Or.inr ⟨_, hmv⟩
  refine ⟨h1, fun fuel s all _ h => h2 fuel s all h, ?_⟩
  intro hsr hsm fuel s all _ h
  obtain ⟨d1, _, hc⟩ := h2 fuel s all h
  rcases hc with hc | ⟨n, hc⟩
  · exact hsr _ _ hc
  · exact hsm _ _ hc

theorem storeFacade_read_nonempty (maxLength : Int) (h : Store) (off : Int)
    (hlt : off < (storeFacade maxLength).top h)
    (hn : ((storeFacade maxLength).ReadAt h 4 off).1 = []) :
    ((storeFacade maxLength).ReadAt h 4 off).2 ≠ none ∧
      ((storeFacade maxLength).ReadAt h 4 off).2 ≠ some Error.EOF := by
  have hlt1 : off < Store.top h := hlt
  have hn1 : (Store.ReadAt h 4 off).1 = [] := hn
  show (Store.ReadAt h 4 off).2 ≠ none ∧ (Store.ReadAt h 4 off).2 ≠ some Error.EOF
  unfold Store.ReadAt at hn1 ⊢
  split
  · exact ⟨by simp, by simp⟩
  · rename_i hc
    exfalso
    rw [if_neg hc] at hn1
    simp only at hn1
    have hlen := congrArg List.length hn1
    simp only [List.length_take, List.length_drop, List.length_nil] at hlen
    unfold Store.top at hlt1 hc
    omega

theorem storeFacade_read_not_emptyBuf (maxLength : Int) (h : Store) (off : Int) :
    ((storeFacade maxLength).ReadAt h 4 off).2 ≠ some Error.errEmptyBuf := by
  show (Store.ReadAt h 4 off).2 ≠ some Error.errEmptyBuf
  unfold Store.ReadAt
  split
  · simp
  · simp only
    split <;> simp

theorem storeFacade_move_not_emptyBuf (maxLength : Int) (d : hashDict Store) (n : Int) :
    (storeFacade maxLength).move d n ≠ .error Error.errEmptyBuf := by
  show Store.move d n ≠ .error Error.errEmptyBuf
  unfold Store.move
  split
  · simp
  · simp

/-- C17, witness: the list-backed dictionary over "abcabcabc" from head 0;
its read returns a byte at every position from 0 to below `bufferTop`, and
neither its read nor its advance returns `errEmptyBuf`. -/
theorem findOps_no_empty_buffer_witness :
    ((storeFacade 273).start (mkDict abcabcabc 100 0) ≤ (mkDict abcabcabc 100 0).head ∧
      (mkDict abcabcabc 100 0).head ≤ (storeFacade 273).top (mkDict abcabcabc 100 0).heap) ∧
    findOps (storeFacade 273) 9 (mkDict abcabcabc 100 0) true ≠
      some (.error Error.errEmptyBuf) :=
  ⟨by decide,
    (findOps_no_empty_buffer (storeFacade 273) (storeFacade_read_nonempty 273)).2.2
      (storeFacade_read_not_emptyBuf 273) (storeFacade_move_not_emptyBuf 273)
      9 (mkDict abcabcabc 100 0) true (by decide)⟩

/-- The advance of the list-backed dictionary keeps data and window size and
puts the positions it passes over in front of the index. -/
theorem Store.move_eq_ok (d d1 : hashDict Store) (n : Int) (h : Store.move d n = .ok d1) :
    0 ≤ n ∧ d.head + n ≤ d.heap.top ∧ d1.head = d.head + n ∧
    d1.heap.data = d.heap.data ∧ d1.heap.size = d.heap.size ∧
    ∃ added, d1.heap.index = added ++ d.heap.index ∧
      ∀ o ∈ added, d.head ≤ o ∧ o < d.head + n := by
  unfold Store.move at h
  split at h
  · cases h
  · rename_i hc
    injection h with h
    subst h
    refine ⟨by omega, by omega, rfl, rfl, rfl, _, rfl, ?_⟩
    intro o ho
    simp only [List.mem_reverse, List.mem_map, List.mem_range] at ho
    obtain ⟨k, hk, hko⟩ := ho
    simp at hk
    obtain ⟨a, ha, hak⟩ := hk
    omega

/-! ## Decoding a sound parse -/

theorem byteOf_eq_some (data : List Byte) (pos : Int) (x : Byte)
    (h : byteOf data pos = some x) :
    0 ≤ pos ∧ pos.toNat < data.length ∧ data.get? pos.toNat = some x := by
  unfold byteOf at h
  split at h
  · rename_i h0
    refine ⟨h0, ?_, h⟩
    by_contra hge
    rw [List.get?_eq_none.mpr (not_lt.mp hge)] at h
    cases h
  · cases h

theorem take_succ_of_get (data : List Byte) (h : Nat) (x : Byte)
    (hx : data.get? h = some x) : data.take (h + 1) = data.take h ++ [x] := by
  rw [List.take_succ, ← List.get?_eq_getElem?, hx]
  rfl

/-- Copying `n` bytes from `dist` back after the first `h` bytes of `data`
gives the first `h + n` bytes, when the bytes copied are the ones of `data`. -/
theorem copyBack_take (data : List Byte) (dist : Nat) (hd : 1 ≤ dist) :
    ∀ (n h : Nat), dist ≤ h → h + n ≤ data.length →
      (∀ j : Nat, j < n → data.get? (h + j) = data.get? (h + j - dist)) →
      copyBack dist n (data.take h) = some (data.take (h + n)) := by
  intro n
  induction n with
  | zero => intro h _ _ _; rfl
  | succ k ih =>
    intro h hdh hlen heq
    have hlt : h < data.length := by omega
    have hlenT : (data.take h).length = h := by
      rw [List.length_take]; omega
    obtain ⟨x, hx⟩ : ∃ x, data.get? h = some x := by
      cases hg : data.get? h with
      | none => rw [List.get?_eq_none] at hg; omega
      | some x => exact ⟨x, rfl⟩
    have hsrc : (data.take h).get? ((data.take h).length - dist) = some x := by
      rw [hlenT, List.get?_eq_getElem?, List.getElem?_take_of_lt (by omega),
        ← List.get?_eq_getElem?]
      have := heq 0 (by omega)
      simp only [Nat.add_zero] at this
      rw [← this, hx]
    unfold copyBack
    rw [if_pos ⟨hd, by rw [hlenT]; exact hdh⟩, hsrc]
    simp only
    rw [← take_succ_of_get data h x hx]
    have := ih (h + 1) (by omega) (by omega) (by
      intro j hj
      have := heq (j + 1) (by omega)
      have e1 : h + 1 + j = h + (j + 1) := by omega
      rw [e1]
      exact this)
    rw [this]
    congr 2
    omega

/-- Decoding a sound parse whose matches point back into the bytes before
them, after the first `h` bytes of the data, gives the bytes up to the end of
the parse. -/
theorem decodeOps_sound (data : List Byte) :
    ∀ (ops : List operation) (h : Int), 0 ≤ h →
      SoundParse data data.length h ops → BackWithin h ops →
      (∀ m, operation.ofMatch m ∈ ops → 0 ≤ m.n) →
      decodeOps ops (data.take h.toNat) = some (data.take (h + totalLen ops).toNat) := by
  intro ops
  induction ops with
  | nil =>
    intro h _ _ _ _
    simp [decodeOps, totalLen]
  | cons op rest ih =>
    intro h h0 hs hb hn
    have htl : totalLen (op :: rest) = op.Len + totalLen rest := by
      simp [totalLen]
    have hnr : ∀ m, operation.ofMatch m ∈ rest → 0 ≤ m.n :=
      fun m hm => hn m (List.mem_cons_of_mem _ hm)
    cases op with
    | ofLit l =>
      obtain ⟨hbyte, hrest⟩ := hs
      obtain ⟨_, hlt, hget⟩ := byteOf_eq_some data h l.b hbyte
      have hlen1 : (operation.ofLit l).Len = 1 := rfl
      rw [htl, hlen1]
      have hstep : data.take h.toNat ++ [l.b] = data.take (h + 1).toNat := by
        have : (h + 1).toNat = h.toNat + 1 := by omega
        rw [this, take_succ_of_get data h.toNat l.b hget]
      show decodeOps rest (data.take h.toNat ++ [l.b]) = _
      rw [hstep, ih (h + 1) (by omega) hrest hb hnr]
      congr 2
      omega
    | ofMatch m =>
      obtain ⟨hend, hbytes, hrest⟩ := hs
      obtain ⟨⟨hd1, hdh⟩, hbrest⟩ := hb
      have hn0 : 0 ≤ m.n := hn m (List.mem_cons_self _ _)
      have hlenm : (operation.ofMatch m).Len = m.n := rfl
      rw [htl, hlenm]
      have hcopy : copyBack m.distance.toNat m.n.toNat (data.take h.toNat) =
          some (data.take (h.toNat + m.n.toNat)) := by
        apply copyBack_take data m.distance.toNat (by omega) m.n.toNat h.toNat (by omega)
          (by omega)
        intro j hj
        obtain ⟨x, hx1, hx2⟩ := hbytes (j : Int) (by omega) (by omega)
        obtain ⟨_, _, hg1⟩ := byteOf_eq_some data _ x hx1
        obtain ⟨_, _, hg2⟩ := byteOf_eq_some data _ x hx2
        have e1 : (h + (j : Int)).toNat = h.toNat + j := by omega
        have e2 : (h - m.distance + (j : Int)).toNat = h.toNat + j - m.distance.toNat := by
          omega
        rw [e1] at hg1
        rw [e2] at hg2
        rw [hg1, hg2]
      show (if 1 ≤ m.distance ∧ 0 ≤ m.n then
        match copyBack m.distance.toNat m.n.toNat (data.take h.toNat) with
        | some out1 => decodeOps rest out1
        | none => none
        else none) = _
      rw [if_pos ⟨hd1, hn0⟩, hcopy]
      simp only
      have e3 : h.toNat + m.n.toNat = (h + m.n).toNat := by omega
      rw [e3, ih (h + m.n) (by omega) hrest hbrest hnr]
      congr 2
      omega

/-! ## The operations are a parse of the data -/

theorem ReadsData.runWithinData (F : Facade β) (stream : β → List Byte)
    (hdata : F.ReadsData stream) : F.RunWithinData := by
  intro h a b max hle
  by_contra hgt
  obtain ⟨htop, _, hrun, _⟩ := hdata
  have hlt : F.top h - a < F.equalBytes h a b max := lt_of_not_ge hgt
  obtain ⟨x, hx, _⟩ := hrun h a b max (F.top h - a) (by omega) hlt
  obtain ⟨_, hl, _⟩ := byteOf_eq_some _ _ x hx
  have := htop h
  omega

/-- One operation of `findOp` is a sound parse of the bytes at the head, and a
match points back into the bytes before the head when the hash table returns
only positions below the head. -/
theorem findOp_parse (F : Facade β) (stream : β → List Byte) (hdata : F.ReadsData stream)
    (d : hashDict β) (op : operation) (h : findOp F d = .ok op) :
    (∀ l, op = .ofLit l → byteOf (stream d.heap) d.head = some l.b) ∧
    (∀ m, op = .ofMatch m →
      d.head + m.n ≤ F.top d.heap ∧ 2 ≤ m.n ∧ m.distance ≤ d.head ∧
      (F.OffsetsBelow d → 1 ≤ m.distance) ∧
      (∀ j : Int, 0 ≤ j → j < m.n →
        ∃ x, byteOf (stream d.heap) (d.head + j) = some x ∧
          byteOf (stream d.heap) (d.head - m.distance + j) = some x)) := by
  obtain ⟨htop, hread, hrun, _⟩ := hdata
  obtain ⟨b, rest, hr, _, hcase⟩ := findOp_eq_ok F d op h
  rcases hcase with ⟨_, hop⟩ | ⟨m1, hb, hop⟩
  · constructor
    · intro l hl
      rw [hop] at hl
      injection hl with hl
      rw [← hl]
      exact hread d.heap d.head b rest hr
    · intro m hm
      rw [hop] at hm
      cases hm
  · constructor
    · intro l hl
      rw [hop] at hl
      cases hl
    · intro m hm
      rw [hop] at hm
      injection hm with hm
      subst hm
      obtain ⟨l1, l2, o, hl, ho0, hmo, h2, _, _⟩ := bestMatch_eq_ok F d _ m1 hb
      have hbytes : ∀ j : Int, 0 ≤ j → j < runAt F d o →
          ∃ x, byteOf (stream d.heap) (d.head + j) = some x ∧
            byteOf (stream d.heap) (o + j) = some x :=
        fun j hj0 hj => hrun d.heap d.head o F.MaxLength j hj0 hj
      have hmem : o ∈ potentialOffsets F d (b :: rest) := by rw [hl]; simp
      rw [hmo]
      refine ⟨?_, h2, ?_, ?_, ?_⟩
      · show d.head + runAt F d o ≤ F.top d.heap
        obtain ⟨x, hx, _⟩ := hbytes (runAt F d o - 1) (by omega) (by omega)
        obtain ⟨_, hlt, _⟩ := byteOf_eq_some _ _ x hx
        have := htop d.heap
        omega
      · show d.head - o ≤ d.head
        omega
      · intro hbelow
        show 1 ≤ d.head - o
        rw [potentialOffsets_split] at hmem
        rcases List.mem_append.mp hmem with hs | hi
        · obtain ⟨i, hi1, _, hoi, _⟩ := (mem_shortOffsets _ _ _).mp hs
          omega
        · split at hi
          · have := hbelow _ o hi
            omega
          · simp at hi
      · intro j hj0 hj
        show ∃ x, byteOf (stream d.heap) (d.head + j) = some x ∧
          byteOf (stream d.heap) (d.head - (d.head - o) + j) = some x
        have e : d.head - (d.head - o) + j = o + j := by omega
        rw [e]
        exact hbytes j hj0 hj

theorem SoundParse_take (data : List Byte) (top : Int) :
    ∀ (ops : List operation) (k : Nat) (h : Int),
      SoundParse data top h ops → SoundParse data top h (ops.take k) := by
  intro ops
  induction ops with
  | nil => intro k h hs; simpa using hs
  | cons op rest ih =>
    intro k h hs
    cases k with
    | zero => simp [SoundParse]
    | succ k =>
      rw [List.take_succ_cons]
      cases op with
      | ofLit l => exact ⟨hs.1, ih k _ hs.2⟩
      | ofMatch m => exact ⟨hs.1, hs.2.1, ih k _ hs.2.2⟩

/-- The operations the loop adds are a sound parse of the bytes from the
working head on; their matches have lengths of at least 2 and point back into
the bytes before them when the hash table returns only positions below the
head. -/
theorem findOpsLoop_parse (F : Facade β) (stream : β → List Byte)
    (hdata : F.ReadsData stream) (hmove : F.MoveAdvances) :
    ∀ (fuel : Nat) (d : hashDict β) (acc ops : List operation) (d2 : hashDict β),
      findOpsLoop F fuel d acc = some (.ok (ops, d2)) →
      ∃ new, ops = acc ++ new ∧
        SoundParse (stream d.heap) (F.top d.heap) d.head new ∧
        (∀ m, operation.ofMatch m ∈ new → 0 ≤ m.n) ∧
        (F.MoveKeepsBelow → F.OffsetsBelow d → 0 ≤ d.head → BackWithin d.head new) := by
  intro fuel
  induction fuel with
  | zero =>
    intro d acc ops d2 h
    by_cases hlt : d.head < F.top d.heap
    · simp [findOpsLoop, hlt] at h
    · rw [findOpsLoop_done F 0 d acc hlt] at h
      simp only [Option.some.injEq, Except.ok.injEq, Prod.mk.injEq] at h
      exact ⟨[], by rw [← h.1]; simp, trivial, by simp, fun _ _ _ => trivial⟩
  | succ n ih =>
    intro d acc ops d2 h
    by_cases hlt : d.head < F.top d.heap
    · obtain ⟨op, d1, hop, hmv, hrest⟩ := findOpsLoop_succ_ok F n d acc (ops, d2) hlt h
      obtain ⟨hhead, htop⟩ := hmove d op.Len d1 hmv
      have hstream : stream d1.heap = stream d.heap := hdata.2.2.2 d op.Len d1 hmv
      have hpos := findOp_len_pos F d op hop
      obtain ⟨new, hnew, hs, hn, hb⟩ := ih d1 (acc ++ [op]) ops d2 hrest
      obtain ⟨hlit, hmat⟩ := findOp_parse F stream hdata d op hop
      rw [hstream, htop, hhead] at hs
      refine ⟨op :: new, by rw [hnew]; simp, ?_, ?_, ?_⟩
      · cases op with
        | ofLit l => exact ⟨hlit l rfl, hs⟩
        | ofMatch m =>
          obtain ⟨hend, _, _, _, hbytes⟩ := hmat m rfl
          exact ⟨hend, hbytes, hs⟩
      · intro m hm
        rcases List.mem_cons.mp hm with h1 | h1
        · obtain ⟨_, h2, _⟩ := hmat m h1.symm
          omega
        · exact hn m h1
      · intro hkeep hbelow h0
        have hb1 := hb hkeep (hkeep d op.Len d1 hbelow (by omega) hmv) (by omega)
        rw [hhead] at hb1
        cases op with
        | ofLit l => exact hb1
        | ofMatch m =>
          obtain ⟨_, _, hle, hge, _⟩ := hmat m rfl
          exact ⟨⟨hge hbelow, hle⟩, hb1⟩
    · rw [findOpsLoop_done F (n + 1) d acc hlt] at h
      simp only [Option.some.injEq, Except.ok.injEq, Prod.mk.injEq] at h
      exact ⟨[], by rw [← h.1]; simp, trivial, by simp, fun _ _ _ => trivial⟩

/-- C18, as amended.  For a dictionary whose read and run count report its
bytes and whose advance moves the head by the length given: every sequence
`findOps` returns is a sound parse of the bytes from the head on (a literal
carries the byte at its position `h`; a match of distance `d` and length `n`
has `h + n <= bufferTop` and repeats the bytes `d` positions back); and when
the hash table returns only positions below the head, at the call and after
every advance, decoding the sequence returned with `all = true` after the
bytes before the head gives exactly the bytes up to `bufferTop`. -/
theorem findOps_sound_parse (F : Facade β) (stream : β → List Byte)
    (hdata : F.ReadsData stream) (hmove : F.MoveAdvances)
    (fuel : Nat) (s : hashDict β) (all : Bool) (ops : List operation)
    (h : findOps F fuel s all = some (.ok ops)) :
    SoundParse (stream s.heap) (F.top s.heap) s.head ops ∧
    (all = true → 0 ≤ s.head → s.head ≤ F.top s.heap →
      F.MoveKeepsBelow → F.OffsetsBelow s →
      decodeOps ops ((stream s.heap).take s.head.toNat) = some (stream s.heap)) := by
  obtain ⟨ops1, d2, hl, hops⟩ := findOps_eq_ok F fuel s all ops h
  obtain ⟨new, hnew, hs, hn, hb⟩ := findOpsLoop_parse F stream hdata hmove fuel s [] ops1 d2 hl
  rw [List.nil_append] at hnew
  subst hnew
  constructor
  · rcases hops with h1 | h1
    · rw [h1]; exact hs
    · rw [h1]; exact SoundParse_take _ _ _ _ _ hs
  · intro hall h0 hle hkeep hbelow
    subst hall
    obtain ⟨d3, hl3⟩ := findOps_true_eq F fuel s ops h
    rw [hl] at hl3
    simp only [Option.some.injEq, Except.ok.injEq, Prod.mk.injEq] at hl3
    have hops1 : ops = ops1 := hl3.1.symm
    subst hops1
    have hsum := (findOpsLoop_sum F hmove (ReadsData.runWithinData F stream hdata)
      fuel s [] ops d2 hle hl).1
    simp only [List.map_nil, List.sum_nil, zero_add] at hsum
    have htop := hdata.1 s.heap
    rw [htop] at hs
    rw [decodeOps_sound (stream s.heap) ops s.head h0 hs (hb hkeep hbelow h0) hn]
    have ht : totalLen ops = F.top s.heap - s.head := hsum
    rw [ht, htop]
    congr 1
    apply List.take_of_length_le
    omega

/-! ## The list-backed dictionary reports its bytes -/

theorem Store.byteAt_eq_byteOf (s : Store) (pos : Int) : s.byteAt pos = byteOf s.data pos := rfl

theorem Store.run_bytes (s : Store) :
    ∀ (cap : Nat) (a b j : Int), 0 ≤ j → j < s.run cap a b →
      ∃ x, byteOf s.data (a + j) = some x ∧ byteOf s.data (b + j) = some x := by
  intro cap
  induction cap with
  | zero =>
    intro a b j h0 hj
    simp only [Store.run] at hj
    omega
  | succ k ih =>
    intro a b j h0 hj
    unfold Store.run at hj
    split at hj
    · rename_i x y hx hy
      split at hj
      · rename_i hxy
        by_cases hz : j = 0
        · subst hz
          rw [Store.byteAt_eq_byteOf] at hx hy
          exact ⟨x, by simpa using hx, by simpa [hxy] using hy⟩
        · obtain ⟨z, hz1, hz2⟩ := ih (a + 1) (b + 1) (j - 1) (by omega) (by omega)
          have e1 : a + 1 + (j - 1) = a + j := by omega
          have e2 : b + 1 + (j - 1) = b + j := by omega
          rw [e1] at hz1
          rw [e2] at hz2
          exact ⟨z, hz1, hz2⟩
      · omega
    · omega

theorem Store.read_head (s : Store) (off : Int) (b : Byte) (rest : List Byte)
    (h : (s.ReadAt 4 off).1 = b :: rest) : byteOf s.data off = some b := by
  unfold Store.ReadAt at h
  split at h
  · cases h
  · rename_i hc
    simp only at h
    have h0 : 0 ≤ off := by omega
    unfold byteOf
    rw [if_pos h0]
    have hh : ((s.data.drop off.toNat).take 4).get? 0 = some b := by rw [h]; rfl
    rw [List.get?_eq_getElem?, List.getElem?_take_of_lt (by omega), List.getElem?_drop,
      ← List.get?_eq_getElem?] at hh
    simpa using hh

theorem storeFacade_readsData (maxLength : Int) :
    (storeFacade maxLength).ReadsData Store.data := by
  refine ⟨fun _ => rfl, ?_, ?_, ?_⟩
  · intro h off b rest hr
    exact Store.read_head h off b rest hr
  · intro h a b max j h0 hj
    exact Store.run_bytes h max.toNat a b j h0 hj
  · intro d n d1 hmv
    exact (Store.move_eq_ok d d1 n hmv).2.2.2.1

theorem storeFacade_moveKeepsBelow (maxLength : Int) :
    (storeFacade maxLength).MoveKeepsBelow := by
  intro d n d1 hbelow hn hmv p o ho
  obtain ⟨_, _, hhead, hdata, _, added, hidx, hadd⟩ := Store.move_eq_ok d d1 n hmv
  have ho1 : o ∈ Store.Offsets d1.heap p := ho
  unfold Store.Offsets at ho1
  rw [hidx, hdata, List.filter_append] at ho1
  rw [hhead]
  rcases List.mem_append.mp ho1 with h1 | h1
  · have := hadd o (List.mem_of_mem_filter h1)
    omega
  · have : o < d.head := hbelow p o h1
    omega

/-- C18, witness: the sequence for "abcabcabc" from head 0 is a sound parse,
and decoding it gives "abcabcabc". -/
theorem findOps_sound_parse_witness :
    findOps (storeFacade 273) 9 (mkDict abcabcabc 100 0) true =
      some (.ok [.ofLit ⟨97⟩, .ofLit ⟨98⟩, .ofLit ⟨99⟩, .ofMatch ⟨3, 6⟩]) ∧
    SoundParse abcabcabc 9 0 [.ofLit ⟨97⟩, .ofLit ⟨98⟩, .ofLit ⟨99⟩, .ofMatch ⟨3, 6⟩] ∧
    decodeOps [.ofLit ⟨97⟩, .ofLit ⟨98⟩, .ofLit ⟨99⟩, .ofMatch ⟨3, 6⟩] [] =
      some abcabcabc :=
  ⟨rfl,
    (findOps_sound_parse (storeFacade 273) Store.data (storeFacade_readsData 273)
      (storeFacade_moveAdvances 273) 9 (mkDict abcabcabc 100 0) true
      [.ofLit ⟨97⟩, .ofLit ⟨98⟩, .ofLit ⟨99⟩, .ofMatch ⟨3, 6⟩] rfl).1,
    (findOps_sound_parse (storeFacade 273) Store.data (storeFacade_readsData 273)
      (storeFacade_moveAdvances 273) 9 (mkDict abcabcabc 100 0) true
      [.ofLit ⟨97⟩, .ofLit ⟨98⟩, .ofLit ⟨99⟩, .ofMatch ⟨3, 6⟩] rfl).2 rfl (by decide)
      (by decide) (storeFacade_moveKeepsBelow 273) (fun _ _ ho => nomatch ho)⟩

/-! ## Decoding an incremental run -/

theorem decodeOps_append :
    ∀ (a b : List operation) (out : List Byte),
      decodeOps (a ++ b) out = (decodeOps a out).bind (decodeOps b) := by
  intro a
  induction a with
  | nil => intro b out; rfl
  | cons op rest ih =>
    intro b out
    cases op with
    | ofLit l => exact ih b _
    | ofMatch m =>
      show (if 1 ≤ m.distance ∧ 0 ≤ m.n then
          match copyBack m.distance.toNat m.n.toNat out with
          | some out1 => decodeOps (rest ++ b) out1
          | none => none
          else none) =
        (if 1 ≤ m.distance ∧ 0 ≤ m.n then
          match copyBack m.distance.toNat m.n.toNat out with
          | some out1 => decodeOps rest out1
          | none => none
          else none).bind (decodeOps b)
      split
      · cases copyBack m.distance.toNat m.n.toNat out with
        | none => rfl
        | some out1 => exact ih b out1
      · rfl

theorem byteOf_append (data ext : List Byte) (pos : Int) (x : Byte)
    (h : byteOf data pos = some x) : byteOf (data ++ ext) pos = some x := by
  obtain ⟨h0, hlt, hg⟩ := byteOf_eq_some data pos x h
  unfold byteOf
  rw [if_pos h0, List.get?_eq_getElem?, List.getElem?_append_left hlt,
    ← List.get?_eq_getElem?, hg]

/-- A sound parse of some bytes is a sound parse of these bytes followed by
more. -/
theorem SoundParse_append (data ext : List Byte) :
    ∀ (ops : List operation) (h : Int),
      SoundParse data data.length h ops →
      SoundParse (data ++ ext) (data ++ ext).length h ops := by
  intro ops
  induction ops with
  | nil => intro h _; trivial
  | cons op rest ih =>
    intro h hs
    cases op with
    | ofLit l => exact ⟨byteOf_append data ext h l.b hs.1, ih _ hs.2⟩
    | ofMatch m =>
      obtain ⟨hend, hbytes, hrest⟩ := hs
      refine ⟨?_, ?_, ih _ hrest⟩
      · rw [List.length_append]
        push_cast
        omega
      · intro j hj0 hj
        obtain ⟨x, hx1, hx2⟩ := hbytes j hj0 hj
        exact ⟨x, byteOf_append data ext _ x hx1, byteOf_append data ext _ x hx2⟩

theorem BackWithin_take :
    ∀ (ops : List operation) (k : Nat) (h : Int),
      BackWithin h ops → BackWithin h (ops.take k) := by
  intro ops
  induction ops with
  | nil => intro k h hs; simpa using hs
  | cons op rest ih =>
    intro k h hs
    cases k with
    | zero => simp [BackWithin]
    | succ k =>
      rw [List.take_succ_cons]
      cases op with
      | ofLit l => exact ih k _ hs
      | ofMatch m => exact ⟨hs.1, ih k _ hs.2⟩

theorem totalLen_take_le :
    ∀ (ops : List operation) (k : Nat), (∀ op ∈ ops, 1 ≤ op.Len) →
      0 ≤ totalLen (ops.take k) ∧ totalLen (ops.take k) ≤ totalLen ops := by
  intro ops
  induction ops with
  | nil => intro k _; simp [totalLen]
  | cons op rest ih =>
    intro k hpos
    have h1 := hpos op (List.mem_cons_self _ _)
    have hrest : ∀ x ∈ rest, 1 ≤ x.Len := fun x hx => hpos x (List.mem_cons_of_mem _ hx)
    cases k with
    | zero =>
      have := ih 0 hrest
      simp only [List.take_zero, totalLen, List.map_nil, List.sum_nil, List.map_cons,
        List.sum_cons] at this ⊢
      omega
    | succ k =>
      have := ih k hrest
      simp only [List.take_succ_cons, totalLen, List.map_cons, List.sum_cons] at this ⊢
      omega

/-- The parse, the back references and the lengths of what `findOps` returns,
for either value of `all`. -/
theorem findOps_parse (F : Facade β) (stream : β → List Byte)
    (hdata : F.ReadsData stream) (hmove : F.MoveAdvances) (hkeep : F.MoveKeepsBelow)
    (fuel : Nat) (s : hashDict β) (all : Bool) (ops : List operation)
    (h0 : 0 ≤ s.head) (hle : s.head ≤ F.top s.heap) (hbelow : F.OffsetsBelow s)
    (h : findOps F fuel s all = some (.ok ops)) :
    SoundParse (stream s.heap) (stream s.heap).length s.head ops ∧ BackWithin s.head ops ∧
    (∀ m, operation.ofMatch m ∈ ops → 0 ≤ m.n) ∧
    0 ≤ totalLen ops ∧ s.head + totalLen ops ≤ F.top s.heap ∧
    (all = true → s.head + totalLen ops = F.top s.heap) := by
  obtain ⟨ops1, d2, hl, hops⟩ := findOps_eq_ok F fuel s all ops h
  obtain ⟨new, hnew, hs, hn, hb⟩ := findOpsLoop_parse F stream hdata hmove fuel s [] ops1 d2 hl
  rw [List.nil_append] at hnew
  subst hnew
  rw [hdata.1 s.heap] at hs
  have hsum := (findOpsLoop_sum F hmove (ReadsData.runWithinData F stream hdata)
    fuel s [] ops1 d2 hle hl).1
  simp only [List.map_nil, List.sum_nil, zero_add] at hsum
  have hsum1 : totalLen ops1 = F.top s.heap - s.head := hsum
  have hpos : ∀ op ∈ ops1, 1 ≤ op.Len :=
    findOpsLoop_forall F (fun op => 1 ≤ op.Len) (fun d op hop => findOp_len_pos F d op hop)
      fuel s [] ops1 d2 (by simp) hl
  have hlast : all = true → s.head + totalLen ops = F.top s.heap := by
    intro hall
    subst hall
    obtain ⟨d3, hl3⟩ := findOps_true_eq F fuel s ops h
    rw [hl] at hl3
    simp only [Option.some.injEq, Except.ok.injEq, Prod.mk.injEq] at hl3
    rw [← hl3.1]
    omega
  rcases hops with h1 | h1
  · subst h1
    exact ⟨hs, hb hkeep hbelow h0, hn, by omega, by omega, hlast⟩
  · have htl := totalLen_take_le ops1 (ops1.length - 1) hpos
    rw [← h1] at htl
    refine ⟨?_, ?_, ?_, by omega, by omega, hlast⟩
    · rw [h1]; exact SoundParse_take _ _ _ _ _ hs
    · rw [h1]; exact BackWithin_take _ _ _ (hb hkeep hbelow h0)
    · intro m hm
      rw [h1] at hm
      exact hn m (List.mem_of_mem_take hm)

/-- What holds of an incremental run when the hash table returns only
positions below the head at each call: the operations returned with
`all = false` on `data1`, followed by the operations returned with
`all = true` from the advanced head on `data1` followed by `data2`, decode to
the same bytes as the operations of a single call with `all = true`, namely to
`data1` followed by `data2`. -/
theorem findOps_incremental_decode (F : Facade β) (stream : β → List Byte)
    (hdata : F.ReadsData stream) (hmove : F.MoveAdvances) (hkeep : F.MoveKeepsBelow)
    (fuelA fuelB fuelC : Nat) (s s2 sB : hashDict β) (data2 : List Byte)
    (ops1 ops2 opsB : List operation)
    (h0 : 0 ≤ s.head) (hle : s.head ≤ F.top s.heap)
    (hstreamB : stream sB.heap = stream s.heap ++ data2)
    (hstream2 : stream s2.heap = stream s.heap ++ data2)
    (hheadB : sB.head = s.head) (hhead2 : s2.head = s.head + totalLen ops1)
    (hb1 : F.OffsetsBelow s) (hb2 : F.OffsetsBelow s2) (hbB : F.OffsetsBelow sB)
    (h1 : findOps F fuelA s false = some (.ok ops1))
    (h2 : findOps F fuelB s2 true = some (.ok ops2))
    (hB : findOps F fuelC sB true = some (.ok opsB)) :
    decodeOps (ops1 ++ ops2) ((stream s.heap ++ data2).take s.head.toNat) =
      some (stream s.heap ++ data2) ∧
    decodeOps opsB ((stream s.heap ++ data2).take s.head.toNat) =
      some (stream s.heap ++ data2) := by
  have htopB : F.top sB.heap = ((stream s.heap ++ data2).length : Int) := by
    rw [hdata.1 sB.heap, hstreamB]
  have htop2 : F.top s2.heap = ((stream s.heap ++ data2).length : Int) := by
    rw [hdata.1 s2.heap, hstream2]
  have htop1 : F.top s.heap = ((stream s.heap).length : Int) := hdata.1 s.heap
  have hlen : ((stream s.heap).length : Int) ≤ ((stream s.heap ++ data2).length : Int) := by
    rw [List.length_append]; push_cast; omega
  obtain ⟨hs1, hbk1, hn1, ht0, ht1, _⟩ :=
    findOps_parse F stream hdata hmove hkeep fuelA s false ops1 h0 hle hb1 h1
  obtain ⟨hs2, hbk2, hn2, _, _, hall2⟩ :=
    findOps_parse F stream hdata hmove hkeep fuelB s2 true ops2 (by omega) (by omega) hb2 h2
  obtain ⟨hsB, hbkB, hnB, _, _, hallB⟩ :=
    findOps_parse F stream hdata hmove hkeep fuelC sB true opsB (by omega) (by omega) hbB hB
  have full : ∀ k : Int, k = ((stream s.heap ++ data2).length : Int) →
      (stream s.heap ++ data2).take k.toNat = stream s.heap ++ data2 := by
    intro k hk
    apply List.take_of_length_le
    omega
  constructor
  · rw [decodeOps_append,
      decodeOps_sound (stream s.heap ++ data2) ops1 s.head h0
        (SoundParse_append _ _ _ _ hs1) hbk1 hn1]
    simp only [Option.some_bind]
    rw [hstream2, hhead2] at hs2
    rw [hhead2] at hbk2
    rw [decodeOps_sound (stream s.heap ++ data2) ops2 _ (by omega) hs2 hbk2 hn2]
    have := hall2 rfl
    rw [full _ (by omega)]
  · rw [hstreamB, hheadB] at hsB
    rw [hheadB] at hbkB
    rw [decodeOps_sound (stream s.heap ++ data2) opsB _ h0 hsB hbkB hnB]
    have := hallB rfl
    rw [full _ (by omega)]

/-! ## Two calls on the same contents -/

theorem bestMatchScan_congr (F : Facade β) (a b : hashDict β)
    (hrun : ∀ o : Int, F.equalBytes a.heap a.head o F.MaxLength =
      F.equalBytes b.heap b.head o F.MaxLength) (l : List Int) :
    bestMatchScan F a l = bestMatchScan F b l := by
  induction l with
  | nil => rfl
  | cons o t ih =>
    rw [bestMatchScan_cons, bestMatchScan_cons, ih]
    unfold bestMatchStep
    rw [hrun o]

theorem findOp_congr (F : Facade β) (a b : hashDict β)
    (hhead : a.head = b.head) (hstart : F.start a = F.start b)
    (hread : F.ReadAt a.heap 4 a.head = F.ReadAt b.heap 4 b.head)
    (hrun : ∀ o : Int, F.equalBytes a.heap a.head o F.MaxLength =
      F.equalBytes b.heap b.head o F.MaxLength)
    (hoff : ∀ p : List Byte, F.Offsets a.heap p = F.Offsets b.heap p) :
    findOp F a = findOp F b := by
  have hpot : ∀ p, potentialOffsets F a p = potentialOffsets F b p := by
    intro p
    unfold potentialOffsets
    rw [hstart, hhead, hoff p]
  have hbest : ∀ l, bestMatch F a l = bestMatch F b l := by
    intro l
    unfold bestMatch
    rw [bestMatchScan_congr F a b hrun l, hhead]
  unfold findOp
  simp only [hread, hpot, hbest]

theorem findOpsLoop_congr (F : Facade β) (R : hashDict β → hashDict β → Prop)
    (hR : F.SameContents R) :
    ∀ (fuel : Nat) (a b : hashDict β) (acc : List operation), R a b →
      (findOpsLoop F fuel a acc).map (Except.map Prod.fst) =
        (findOpsLoop F fuel b acc).map (Except.map Prod.fst) := by
  intro fuel
  induction fuel with
  | zero =>
    intro a b acc hab
    obtain ⟨hhead, htop, _⟩ := hR a b hab
    simp only [findOpsLoop, hhead, htop]
    split <;> rfl
  | succ n ih =>
    intro a b acc hab
    obtain ⟨hhead, htop, hstart, hread, hrun, hoff, hmove⟩ := hR a b hab
    have hop := findOp_congr F a b hhead hstart hread hrun hoff
    simp only [findOpsLoop, hhead, htop, hop]
    split
    · cases hb : findOp F b with
      | error e => rfl
      | ok op =>
        simp only
        rcases hmove op.Len with ⟨a1, b1, ha1, hb1, hr⟩ | ⟨e, ha1, hb1⟩
        · rw [ha1, hb1]
          exact ih a1 b1 _ hr
        · rw [ha1, hb1]
    · rfl

/-- C12.  The result of `findOps` is determined by the head and by what the
dictionary answers to the calls of `greedy.go`: called on two dictionaries
with the same head that answer every read, run count, hash table lookup and
advance alike, as is the case for two calls in succession with no commit and
no change of the dictionary contents, `findOps` yields the same operation
sequence or the same error, for either value of `all` and every iteration
bound. -/
theorem findOps_same_contents (F : Facade β) (R : hashDict β → hashDict β → Prop)
    (hR : F.SameContents R) (fuel : Nat) (s1 s2 : hashDict β) (all : Bool)
    (h : R s1 s2) :
    findOps F fuel s1 all = findOps F fuel s2 all := by
  have hl := findOpsLoop_congr F R hR fuel s1 s2 [] h
  unfold findOps
  cases h1 : findOpsLoop F fuel s1 [] with
  | none =>
    cases h2 : findOpsLoop F fuel s2 [] with
    | none => rfl
    | some r2 => rw [h1, h2] at hl; cases hl
  | some r1 =>
    cases h2 : findOpsLoop F fuel s2 [] with
    | none => rw [h1, h2] at hl; cases hl
    | some r2 =>
      rw [h1, h2] at hl
      simp only [Option.map_some', Option.some.injEq] at hl
      cases r1 with
      | error e1 =>
        cases r2 with
        | error e2 =>
          simp only [Except.map] at hl
          injection hl with hl
          rw [hl]
        | ok p2 => simp only [Except.map] at hl; cases hl
      | ok p1 =>
        cases r2 with
        | error e2 => simp only [Except.map] at hl; cases hl
        | ok p2 =>
          simp only [Except.map] at hl
          injection hl with hl
          obtain ⟨o1, d1⟩ := p1
          obtain ⟨o2, d2⟩ := p2
          simp only at hl
          subst hl
          rfl

/-- A dictionary has the same contents as itself. -/
theorem sameContents_eq (F : Facade β) : F.SameContents Eq := by
  intro a b hab
  subst hab
  refine ⟨rfl, rfl, rfl, rfl, fun _ => rfl, fun _ => rfl, ?_⟩
  intro n
  cases h : F.move a n with
  | error e => exact Or.inr ⟨e, rfl, rfl⟩
  | ok a1 => exact Or.inl ⟨a1, a1, rfl, rfl, rfl⟩

theorem Store.run_data (s t : Store) (h : s.data = t.data) :
    ∀ (cap : Nat) (a b : Int), s.run cap a b = t.run cap a b := by
  intro cap
  induction cap with
  | zero => intro a b; rfl
  | succ k ih =>
    intro a b
    unfold Store.run
    have hb : ∀ pos, s.byteAt pos = t.byteAt pos := by
      intro pos
      unfold Store.byteAt
      rw [h]
    rw [hb a, hb b, ih]

theorem Store.move_ok (d : hashDict Store) (n : Int)
    (hc : ¬(n < 0 ∨ d.heap.top < d.head + n)) :
    Store.move d n =
      .ok { heap := { d.heap with
                      index := ((List.range n.toNat).map (fun k => d.head + (k : Int))).reverse
                                ++ d.heap.index },
            head := d.head + n } := by
  unfold Store.move
  rw [if_neg hc]

/-- The list-backed dictionary answers alike for every window that holds all
of the data. -/
theorem sameContents_window (M : Int) : (storeFacade M).SameContents sameButWindow := by
  intro a b hab
  obtain ⟨hhead, hdata, hidx, h0, hle, hsa, hsb⟩ := hab
  have htop : a.heap.top = b.heap.top := by
    unfold Store.top; rw [hdata]
  refine ⟨hhead, htop, ?_, ?_, ?_, ?_, ?_⟩
  · show Store.start a = Store.start b
    unfold Store.start
    omega
  · show Store.ReadAt a.heap 4 a.head = Store.ReadAt b.heap 4 b.head
    unfold Store.ReadAt
    rw [htop, hhead, hdata]
  · intro o
    show Store.equalBytes a.heap a.head o M = Store.equalBytes b.heap b.head o M
    unfold Store.equalBytes
    rw [hhead]
    exact Store.run_data a.heap b.heap hdata _ _ _
  · intro p
    show Store.Offsets a.heap p = Store.Offsets b.heap p
    unfold Store.Offsets
    rw [hidx, hdata]
  · intro n
    show (∃ a1 b1, Store.move a n = .ok a1 ∧ Store.move b n = .ok b1 ∧ sameButWindow a1 b1) ∨
      (∃ e, Store.move a n = .error e ∧ Store.move b n = .error e)
    by_cases hc : n < 0 ∨ a.heap.top < a.head + n
    · right
      refine ⟨Error.other 2, ?_, ?_⟩
      · unfold Store.move
        rw [if_pos hc]
      · unfold Store.move
        rw [if_pos (by rw [← htop, ← hhead]; exact hc)]
    · left
      have hcb : ¬(n < 0 ∨ b.heap.top < b.head + n) := by
        rw [← htop, ← hhead]; exact hc
      refine ⟨_, _, Store.move_ok a n hc, Store.move_ok b n hcb, ?_⟩
      refine ⟨?_, hdata, ?_, ?_, ?_, hsa, hsb⟩
      · show a.head + n = b.head + n
        rw [hhead]
      · show _ ++ a.heap.index = _ ++ b.heap.index
        rw [hidx, hhead]
      · show 0 ≤ a.head + n
        omega
      · show a.head + n ≤ a.heap.top
        omega

/-- C12, witness: the list-backed dictionary over "abcabcabc" at head 0, once
with a window of 100 bytes and once with a window of 200 bytes. -/
theorem findOps_same_contents_witness :
    sameButWindow (mkDict abcabcabc 100 0) (mkDict abcabcabc 200 0) ∧
    findOps (storeFacade 273) 9 (mkDict abcabcabc 100 0) true =
      findOps (storeFacade 273) 9 (mkDict abcabcabc 200 0) true :=
  ⟨⟨rfl, rfl, rfl, by decide, by decide, by decide, by decide⟩,
    findOps_same_contents (storeFacade 273) sameButWindow (sameContents_window 273) 9
      (mkDict abcabcabc 100 0) (mkDict abcabcabc 200 0) true
      ⟨rfl, rfl, rfl, by decide, by decide, by decide, by decide⟩⟩

/-! ## An incremental run on the list-backed dictionary -/

/-- A read of the list-backed dictionary at a position from 0 to below
`bufferTop` returns at least one byte, with no error or with `io.EOF`. -/
theorem Store.read_ok (h : Store) (off : Int) (h0 : 0 ≤ off) (hlt : off < h.top) :
    (h.ReadAt 4 off).1 ≠ [] ∧
    ((h.ReadAt 4 off).2 = none ∨ (h.ReadAt 4 off).2 = some Error.EOF) := by
  have hc : ¬(off < 0 ∨ h.top < off) := by omega
  unfold Store.ReadAt
  rw [if_neg hc]
  simp only
  constructor
  · intro hnil
    have hlen := congrArg List.length hnil
    simp only [List.length_take, List.length_drop, List.length_nil] at hlen
    unfold Store.top at hlt
    omega
  · split
    · exact Or.inr rfl
    · exact Or.inl rfl

/-- On the list-backed dictionary the loop of `findOps` ends without error
from every head from 0 on, within `bufferTop - head` turns. -/
theorem storeFacade_loop_ok (M : Int) :
    ∀ (fuel : Nat) (d : hashDict Store) (acc : List operation),
      0 ≤ d.head → d.heap.top - d.head ≤ fuel →
      ∃ ops d2, findOpsLoop (storeFacade M) fuel d acc = some (.ok (ops, d2)) := by
  intro fuel
  induction fuel with
  | zero =>
    intro d acc h0 hf
    have hlt : ¬ d.head < (storeFacade M).top d.heap := by
      show ¬ d.head < d.heap.top
      simp only [Nat.cast_zero] at hf
      omega
    exact ⟨acc, d, findOpsLoop_done _ 0 d acc hlt⟩
  | succ n ih =>
    intro d acc h0 hf
    by_cases hlt : d.head < (storeFacade M).top d.heap
    · have hlt1 : d.head < d.heap.top := hlt
      obtain ⟨hn, he⟩ := Store.read_ok d.heap d.head h0 hlt1
      obtain ⟨op, hop⟩ := findOp_of_read_ok (storeFacade M) d hn he
      have hpos := findOp_len_pos (storeFacade M) d op hop
      have hle : op.Len ≤ d.heap.top - d.head :=
        findOp_len_le (storeFacade M) (storeFacade_runWithinData M) d op hlt hop
      have hc : ¬(op.Len < 0 ∨ d.heap.top < d.head + op.Len) := by omega
      have hmv : (storeFacade M).move d op.Len = .ok _ := Store.move_ok d op.Len hc
      have hstep := findOpsLoop_step (storeFacade M) n d _ acc op hlt hop hmv
      rw [hstep]
      apply ih
      · show 0 ≤ d.head + op.Len
        omega
      · show d.heap.top - (d.head + op.Len) ≤ n
        push_cast at hf
        omega
    · exact ⟨acc, d, findOpsLoop_done _ (n + 1) d acc hlt⟩

/-- On the list-backed dictionary `findOps` returns a sequence of operations
from every head from 0 on, within `bufferTop - head` turns. -/
theorem storeFacade_findOps_ok (M : Int) (fuel : Nat) (d : hashDict Store) (all : Bool)
    (h0 : 0 ≤ d.head) (hf : d.heap.top - d.head ≤ fuel) :
    ∃ ops, findOps (storeFacade M) fuel d all = some (.ok ops) := by
  obtain ⟨ops, d2, hl⟩ := storeFacade_loop_ok M fuel d [] h0 hf
  unfold findOps
  rw [hl]
  simp only
  split
  · exact ⟨_, rfl⟩
  · exact ⟨_, rfl⟩

/-- New data do not change which positions the index holds. -/
theorem appendData_offsetsBelow (M : Int) (d : hashDict Store) (more : List Byte)
    (h : (storeFacade M).OffsetsBelow d) : (storeFacade M).OffsetsBelow (appendData d more) := by
  intro p o ho
  have ho1 : o ∈ Store.Offsets (appendData d more).heap p := ho
  unfold Store.Offsets at ho1
  rw [List.mem_filter] at ho1
  obtain ⟨hmem, hcond⟩ := ho1
  simp only [Bool.and_eq_true, decide_eq_true_eq] at hcond
  have hmem1 : o ∈ d.heap.index := hmem
  have : o ∈ (storeFacade M).Offsets d.heap [] := by
    show o ∈ Store.Offsets d.heap []
    unfold Store.Offsets
    rw [List.mem_filter]
    refine ⟨hmem1, ?_⟩
    simp only [List.length_nil, List.take_zero, decide_True, Bool.and_true, decide_eq_true_eq]
    exact hcond.1
  exact h [] o this

/-- C13, on the list-backed dictionary, for every `MaxLength`, window size,
`data1`, `data2` and `head` from 0 to the length of `data1`.  The dictionary
`s` is the one over `data1` whose head has advanced from 0 to `head`.
`findOps` with `all = false` on `s` returns operations `ops1`.  The call
returns operations only and the dictionary its caller holds is still `s`; the
head of `s` is advanced by the sum of the lengths of `ops1` and `data2` comes
in; `findOps` with `all = true` on that dictionary returns `ops2`; `findOps`
with `all = true` on `s` with `data2` appended returns `opsB`.  All three
calls return, and the decoding of `ops1` followed by `ops2` equals the
decoding of `opsB`: both give `data1` followed by `data2` when decoded after
the bytes before `head`. -/
theorem findOps_incremental_same_decoding (M size : Int) (data1 data2 : List Byte)
    (head : Int) (fuel : Nat) (h0 : 0 ≤ head) (hle : head ≤ data1.length)
    (hfuel : (data1 ++ data2).length ≤ fuel) :
    ∃ (s s2 : hashDict Store) (ops1 ops2 opsB : List operation),
      (storeFacade M).move (mkDict data1 size 0) head = .ok s ∧
      findOps (storeFacade M) fuel s false = some (.ok ops1) ∧
      (storeFacade M).move s (totalLen ops1) = .ok s2 ∧
      findOps (storeFacade M) fuel (appendData s2 data2) true = some (.ok ops2) ∧
      findOps (storeFacade M) fuel (appendData s data2) true = some (.ok opsB) ∧
      decodeOps (ops1 ++ ops2) ((data1 ++ data2).take head.toNat) =
        decodeOps opsB ((data1 ++ data2).take head.toNat) ∧
      decodeOps opsB ((data1 ++ data2).take head.toNat) = some (data1 ++ data2) := by
  have hlen : ((data1 ++ data2).length : Int) = data1.length + data2.length := by
    rw [List.length_append]; push_cast; rfl
  have hfuelZ : ((data1 ++ data2).length : Int) ≤ fuel := by exact_mod_cast hfuel
  -- the dictionary over `data1` at `head`
  have hc0 : ¬(head < 0 ∨ (mkDict data1 size 0).heap.top < (mkDict data1 size 0).head + head) := by
    show ¬(head < 0 ∨ (data1.length : Int) < 0 + head)
    omega
  obtain ⟨s, hs⟩ : ∃ s, (storeFacade M).move (mkDict data1 size 0) head = .ok s :=
    ⟨_, Store.move_ok (mkDict data1 size 0) head hc0⟩
  obtain ⟨_, _, hshead, hsdata, _, _, _, _⟩ := Store.move_eq_ok _ s head hs
  have hshead1 : s.head = head := by
    rw [hshead]; show 0 + head = head; omega
  have hsdata1 : s.heap.data = data1 := hsdata
  have hstop : s.heap.top = data1.length := by
    unfold Store.top; rw [hsdata1]
  have hkeep := storeFacade_moveKeepsBelow M
  have hbel0 : (storeFacade M).OffsetsBelow (mkDict data1 size 0) := by
    intro p o ho
    have ho1 : o ∈ Store.Offsets (mkDict data1 size 0).heap p := ho
    unfold Store.Offsets at ho1
    simp [mkDict] at ho1
  have hbs : (storeFacade M).OffsetsBelow s := hkeep _ head s hbel0 h0 hs
  -- the first call
  obtain ⟨ops1, h1⟩ := storeFacade_findOps_ok M fuel s false (by omega) (by omega)
  obtain ⟨_, _, _, ht0, ht1, _⟩ :=
    findOps_parse (storeFacade M) Store.data (storeFacade_readsData M)
      (storeFacade_moveAdvances M) hkeep fuel s false ops1 (by omega)
      (by show s.head ≤ s.heap.top; omega) hbs h1
  have ht1a : s.head + totalLen ops1 ≤ s.heap.top := ht1
  -- the advance by the operations returned
  have hc1 : ¬(totalLen ops1 < 0 ∨ s.heap.top < s.head + totalLen ops1) := by omega
  obtain ⟨s2, hs2⟩ : ∃ s2, (storeFacade M).move s (totalLen ops1) = .ok s2 :=
    ⟨_, Store.move_ok s (totalLen ops1) hc1⟩
  obtain ⟨_, _, hs2head, hs2data, _, _, _, _⟩ := Store.move_eq_ok s s2 _ hs2
  have hbs2 : (storeFacade M).OffsetsBelow s2 := hkeep s _ s2 hbs ht0 hs2
  -- the second call and the single call
  have htopA : ∀ d : hashDict Store, d.heap.data = data1 →
      (appendData d data2).heap.top = data1.length + data2.length := by
    intro d hd
    show (((d.heap.data ++ data2).length : Nat) : Int) = _
    rw [hd, hlen]
  obtain ⟨ops2, h2⟩ := storeFacade_findOps_ok M fuel (appendData s2 data2) true
    (by show 0 ≤ s2.head; omega)
    (by rw [htopA s2 (by rw [hs2data, hsdata1])]; show _ - s2.head ≤ _; omega)
  obtain ⟨opsB, hB⟩ := storeFacade_findOps_ok M fuel (appendData s data2) true
    (by show 0 ≤ s.head; omega)
    (by rw [htopA s hsdata1]; show _ - s.head ≤ _; omega)
  have hdec := findOps_incremental_decode (storeFacade M) Store.data
    (storeFacade_readsData M) (storeFacade_moveAdvances M) hkeep fuel fuel fuel
    s (appendData s2 data2) (appendData s data2) data2 ops1 ops2 opsB
    (by omega) (by show s.head ≤ s.heap.top; omega)
    rfl (by show s2.heap.data ++ data2 = s.heap.data ++ data2; rw [hs2data])
    rfl hs2head hbs (appendData_offsetsBelow M s2 data2 hbs2)
    (appendData_offsetsBelow M s data2 hbs) h1 h2 hB
  rw [hsdata1, hshead1] at hdec
  exact ⟨s, s2, ops1, ops2, opsB, hs, h1, hs2, h2, hB, by rw [hdec.1, hdec.2], hdec.2⟩

/-- The run of the witness below, evaluated: the call with `all = false` on
"abcdefghijklabcdef" returns the twelve literals 'a' to 'l' and withholds the
match; after the advance by 12 and with "XY" appended, the call with
`all = true` returns the match of distance 12 and length 6 and the literals
'X' and 'Y'. -/
theorem incremental_run_evaluated :
    (storeFacade 273).move (mkDict abcdefghijklabcdef 100 0) 0 =
      .ok (mkDict abcdefghijklabcdef 100 0) ∧
    findOps (storeFacade 273) 20 (mkDict abcdefghijklabcdef 100 0) false =
      some (.ok [.ofLit ⟨97⟩, .ofLit ⟨98⟩, .ofLit ⟨99⟩, .ofLit ⟨100⟩, .ofLit ⟨101⟩,
        .ofLit ⟨102⟩, .ofLit ⟨103⟩, .ofLit ⟨104⟩, .ofLit ⟨105⟩, .ofLit ⟨106⟩, .ofLit ⟨107⟩,
        .ofLit ⟨108⟩]) ∧
    (storeFacade 273).move (mkDict abcdefghijklabcdef 100 0) 12 =
      .ok { heap := { data := abcdefghijklabcdef, size := 100,
                      index := [11, 10, 9, 8, 7, 6, 5, 4, 3, 2, 1, 0] },
            head := 12 } ∧
    findOps (storeFacade 273) 20
        (appendData { heap := { data := abcdefghijklabcdef, size := 100,
                                index := [11, 10, 9, 8, 7, 6, 5, 4, 3, 2, 1, 0] },
                      head := 12 } [88, 89]) true =
      some (.ok [.ofMatch ⟨12, 6⟩, .ofLit ⟨88⟩, .ofLit ⟨89⟩]) ∧
    findOps (storeFacade 273) 20 (appendData (mkDict abcdefghijklabcdef 100 0) [88, 89]) true =
      some (.ok [.ofLit ⟨97⟩, .ofLit ⟨98⟩, .ofLit ⟨99⟩, .ofLit ⟨100⟩, .ofLit ⟨101⟩,
        .ofLit ⟨102⟩, .ofLit ⟨103⟩, .ofLit ⟨104⟩, .ofLit ⟨105⟩, .ofLit ⟨106⟩, .ofLit ⟨107⟩,
        .ofLit ⟨108⟩, .ofMatch ⟨12, 6⟩, .ofLit ⟨88⟩, .ofLit ⟨89⟩]) :=
  ⟨rfl, rfl, rfl, rfl, rfl⟩

/-- C13, witness: `data1` is "abcdefghijklabcdef", `data2` is "XY", the head
is 0, the window has 100 bytes, `MaxLength` is 273. -/
theorem findOps_incremental_same_decoding_witness :
    (0 : Int) ≤ 0 ∧ (0 : Int) ≤ abcdefghijklabcdef.length ∧
    (abcdefghijklabcdef ++ [88, 89]).length ≤ 20 ∧
    ∃ (s s2 : hashDict Store) (ops1 ops2 opsB : List operation),
      (storeFacade 273).move (mkDict abcdefghijklabcdef 100 0) 0 = .ok s ∧
      findOps (storeFacade 273) 20 s false = some (.ok ops1) ∧
      (storeFacade 273).move s (totalLen ops1) = .ok s2 ∧
      findOps (storeFacade 273) 20 (appendData s2 [88, 89]) true = some (.ok ops2) ∧
      findOps (storeFacade 273) 20 (appendData s [88, 89]) true = some (.ok opsB) ∧
      decodeOps (ops1 ++ ops2) ((abcdefghijklabcdef ++ [88, 89]).take (0 : Int).toNat) =
        decodeOps opsB ((abcdefghijklabcdef ++ [88, 89]).take (0 : Int).toNat) ∧
      decodeOps opsB ((abcdefghijklabcdef ++ [88, 89]).take (0 : Int).toNat) =
        some (abcdefghijklabcdef ++ [88, 89]) :=
  ⟨by decide, by decide, by decide,
    findOps_incremental_same_decoding 273 100 abcdefghijklabcdef [88, 89] 0 20
      (by decide) (by decide) (by decide)⟩

/-- C18, counterexample to the claim as stated.  The list-backed dictionary
over "abcabcabc" with head 0, window start 0 and `bufferTop` 9, whose hash
table holds the position 0 and returns it for the bytes "abca" read at the
head, a position that shares these bytes.  `findOps` with `all = true`
returns the one match of distance 0 and length 9.  The sequence meets the
conditions of the parse: `0 + 9 <= bufferTop`, and the bytes at `0 + j` and at
`0 - 0 + j` are equal for every `j < 9`.  It cannot be decoded: a match of
distance 0 copies from no earlier byte.  The same sequence is returned for the
bytes "xyzxyzxyz", so that no decoder reproduces the data from it. -/
theorem findOps_parse_not_decodable :
    ((storeFacade 273).start (abcDict 100 [0] 0) ≤ (abcDict 100 [0] 0).head ∧
      (abcDict 100 [0] 0).head ≤ (storeFacade 273).top (abcDict 100 [0] 0).heap) ∧
    potentialOffsets (storeFacade 273) (abcDict 100 [0] 0) [97, 98, 99, 97] = [0] ∧
    findOps (storeFacade 273) 9 (abcDict 100 [0] 0) true = some (.ok [.ofMatch ⟨0, 9⟩]) ∧
    SoundParse abcabcabc 9 0 [.ofMatch ⟨0, 9⟩] ∧
    decodeOps [.ofMatch ⟨0, 9⟩] (abcabcabc.take (0 : Int).toNat) = none ∧
    decodeOps [.ofMatch ⟨0, 9⟩] (abcabcabc.take (0 : Int).toNat) ≠ some abcabcabc ∧
    findOps (storeFacade 273) 9
        { heap := { data := [120, 121, 122, 120, 121, 122, 120, 121, 122], size := 100,
                    index := [0] },
          head := 0 } true =
      some (.ok [.ofMatch ⟨0, 9⟩]) :=
  ⟨⟨by decide, by decide⟩, rfl, rfl,
    ⟨by decide, fun j _ h9 => by
      have h9a : j < 9 := h9
      interval_cases j <;> exact ⟨_, rfl, rfl⟩, trivial⟩,
    rfl, by decide, rfl⟩

end Lzb
